import Mathlib

/-!
# halx_driver: the C610/C620 speed-controller driver (`halx/driver/c6x0.hpp`)

A shallow embedding of `C6x0Manager` (feedback decoding with multi-turn
position unwrapping, command-frame packing) and of the per-motor `C6x0` handle.

Conventions of the embedding
* `int16_t`, `int64_t` values are `Int`; every narrowing conversion of the
  source is an explicit `wrap16` / `wrap64` (twos-complement).
* `uint8_t` payload bytes are `Nat`; a store into the payload reduces mod 256.
* The receive queue is the list of frames still to be popped (its capacity of
  64 entries is not imposed: every finite content is admitted).
* The transport (`peripheral::CanBase`) is a field of the manager, so that
  `transmit` is a state transformer returning the new manager.
* `float` is IEEE 754 binary32 (`F32`); a call whose `float` to `int16_t`
  conversion is not defined has no resulting state.
-/

namespace halx.driver

/-! ## Machine integers -/

/-- Conversion to `int16_t`: reduction into `[-32768, 32767]` modulo `2^16`. -/
def wrap16 (x : Int) : Int := (x + 32768) % 65536 - 32768

/-- Conversion to `int64_t`: reduction into `[-2^63, 2^63 - 1]` modulo `2^64`. -/
def wrap64 (x : Int) : Int := (x + 2 ^ 63) % 2 ^ 64 - 2 ^ 63

/-- Conversion to `uint8_t`: the value modulo 256. -/
def toUInt8 (x : Int) : Nat := (x % 256).toNat

/-- Range of `int16_t`. -/
def InInt16 (x : Int) : Prop := -32768 ≤ x ∧ x ≤ 32767

/-- Range of `int64_t`. -/
def InInt64 (x : Int) : Prop := -(2 : Int) ^ 63 ≤ x ∧ x < (2 : Int) ^ 63

instance (x : Int) : Decidable (InInt16 x) := by unfold InInt16; infer_instance

instance (x : Int) : Decidable (InInt64 x) := by unfold InInt64; infer_instance

/-! ## Collaborator types (`halx/peripheral/can.hpp`, `halx/core.hpp`) -/

/-- Modelled from the spec: `peripheral::CanMessage` is declared in
`halx/peripheral/can.hpp`. The driver uses its fields `id`, `ide`
(extended-identifier flag), `dlc` (payload length) and `data` (the 8-byte
payload, "CAN, standard 11-bit identifiers, 8-byte frames"). -/
structure CanMessage where
  id : Nat
  ide : Bool
  dlc : Nat
  data : List Nat
  deriving DecidableEq, Repr

namespace CanMessage

/-- Read of `msg.data[i]`. -/
def byte (msg : CanMessage) (i : Nat) : Nat := msg.data.getD i 0

end CanMessage

/-- Value-initialised frame, `peripheral::CanMessage msg{}`. -/
def CanMessage.zero : CanMessage :=
  { id := 0, ide := false, dlc := 0, data := List.replicate 8 0 }

/-- Modelled from the spec: a receive filter specification as passed to
`attach_rx_queue`, `{id, mask, ide}`: base identifier, mask and frame format
(`ide = false` for standard, non-extended frames). -/
structure CanFilter where
  id : Nat
  mask : Nat
  ide : Bool
  deriving DecidableEq, Repr

/-- Modelled from the spec: the mask rule of a receive filter. A frame with
identifier `x` and format flag `ide` matches when the formats agree and
`x AND mask = id AND mask`. -/
def CanFilter.matches (f : CanFilter) (x : Nat) (ide : Bool) : Bool :=
  decide (ide = f.ide) && decide (x &&& f.mask = f.id &&& f.mask)

/-- Modelled from the spec: the transport collaborator
`transmit(frame, timeout) -> bool` is external. Its behaviour is the answer
`accept n frame` it gives to the `n`-th frame ever offered to it; `offered`
records every frame handed to it, `sent` those it accepted (the frames that
reached the bus). For `attach_rx_queue(filter_spec, queue) ->
optional<filter_handle>` its behaviour is the answer `attach filter_spec`;
`filters` records the filters registered so far. -/
structure CanBase where
  accept : Nat → CanMessage → Bool
  offered : List CanMessage
  sent : List CanMessage
  attach : CanFilter → Option Nat := fun _ => some 0
  filters : List CanFilter := []

/-- The call `can_.attach_rx_queue(filter, rx_queue_)`: on success the filter is
registered and its handle returned. -/
def CanBase.attach_rx_queue (can : CanBase) (filter : CanFilter) : Option (Nat × CanBase) :=
  match can.attach filter with
  | none => none
  | some index => some (index, { can with filters := can.filters ++ [filter] })

/-- The call `can_.transmit(msg, timeout)`. -/
def CanBase.transmit (can : CanBase) (msg : CanMessage) (_timeout : Nat) :
    Bool × CanBase :=
  let ok := can.accept can.offered.length msg
  (ok, { can with
          offered := can.offered ++ [msg]
          sent := if ok then can.sent ++ [msg] else can.sent })

/-! ## Enumerations -/

/-- The `enum class C6x0Type`. -/
inductive C6x0Type where
  | C610
  | C620
  deriving DecidableEq, Repr

/-- The `enum class C6x0Id`. -/
inductive C6x0Id where
  | ID_1 | ID_2 | ID_3 | ID_4 | ID_5 | ID_6 | ID_7 | ID_8
  deriving DecidableEq, Repr

/-- The value `std::to_underlying(id)`. -/
def C6x0Id.to_underlying : C6x0Id → Fin 8
  | .ID_1 => 0 | .ID_2 => 1 | .ID_3 => 2 | .ID_4 => 3
  | .ID_5 => 4 | .ID_6 => 5 | .ID_7 => 6 | .ID_8 => 7

/-! ## Manager state -/

/-- The per-motor record `C6x0Manager::Params`. -/
structure Params where
  position_ : Int := 0
  prev_position_ : Option Int := none
  rpm_ : Int := 0
  current_raw_ : Int := 0
  current_ref_raw_ : Int := 0
  deriving DecidableEq, Repr

/-- The state of a `C6x0Manager`: transport, receive queue, filter handle and
the array `params_` of eight motor records. -/
structure C6x0Manager where
  can_ : CanBase
  rx_queue_ : List CanMessage
  filter_index_ : Nat
  params_ : Fin 8 → Params

/-- The constructor `C6x0Manager::C6x0Manager`: registers the receive filter
`{0x200, 0x7F0, false}`; when registration fails the program terminates
(`none`), otherwise the handle is stored, the receive queue is empty and the
motor records are value-initialised. -/
def C6x0Manager.new (can : CanBase) : Option C6x0Manager :=
  match can.attach_rx_queue { id := 0x200, mask := 0x7F0, ide := false } with
  | none => none
  | some (filter_index, can1) =>
    some { can_ := can1, rx_queue_ := [], filter_index_ := filter_index, params_ := fun _ => {} }

/-! ## `C6x0Manager::update` -/

/-- The expression `static_cast<int16_t>(msg->data[i] << 8 | msg->data[i + 1])`. -/
def read_int16 (msg : CanMessage) (i : Nat) : Int :=
  wrap16 (((msg.byte i <<< 8 ||| msg.byte (i + 1) : Nat) : Int))

/-- The wrap-corrected `delta` of `update`:
`int16_t delta = position - *prev; if (delta > 4096) delta -= 8192;
else if (delta < -4096) delta += 8192;`. -/
def unwrap_delta (position prev : Int) : Int :=
  let delta := wrap16 (position - prev)
  if delta > 4096 then wrap16 (delta - 8192)
  else if delta < -4096 then wrap16 (delta + 8192)
  else delta

/-- The body of the `if` inside the loop of `update`, on the motor record
selected by the frame identifier. The `+=` on the `int64_t` accumulator is taken
modulo `2^64`; signed overflow is undefined in C++, so statements about the sum
as a number carry the condition that it fits `int64_t`. -/
def update_motor (motor : Params) (msg : CanMessage) : Params :=
  let position := read_int16 msg 0
  let motor1 : Params :=
    match motor.prev_position_ with
    | some prev => { motor with position_ := wrap64 (motor.position_ + unwrap_delta position prev) }
    | none => { motor with position_ := position }
  { motor1 with
      prev_position_ := some position
      rpm_ := read_int16 msg 2
      current_raw_ := read_int16 msg 4 }

/-- One iteration of the loop of `update` for a popped frame `msg`. -/
def update_msg (params : Fin 8 → Params) (msg : CanMessage) : Fin 8 → Params :=
  if h : 0x201 ≤ msg.id ∧ msg.id < 0x201 + 8 then
    let idx : Fin 8 := ⟨msg.id - 0x201, by omega⟩
    Function.update params idx (update_motor (params idx) msg)
  else params

/-- The loop `while (auto msg = rx_queue_.pop()) { ... }`: `pop` yields the
oldest frame of the queue, or nothing when the queue is empty, which ends the
loop. The result is the queue and the motor records when the loop ends. -/
def update_loop : List CanMessage → (Fin 8 → Params) → List CanMessage × (Fin 8 → Params)
  | [], params => ([], params)
  | msg :: queue, params => update_loop queue (update_msg params msg)

/-- The method `C6x0Manager::update`. -/
def C6x0Manager.update (m : C6x0Manager) : C6x0Manager :=
  let r := update_loop m.rx_queue_ m.params_
  { m with rx_queue_ := r.1, params_ := r.2 }


/-! ## `C6x0Manager::transmit` -/

/-- The first packing loop of `transmit`:
`for (i = 0; i < 4; ++i) { data[i * 2] = params_[i].current_ref_raw_ >> 8;
data[i * 2 + 1] = params_[i].current_ref_raw_; }`. -/
def pack_low (params : Fin 8 → Params) (data : List Nat) : List Nat :=
  ([0, 1, 2, 3] : List (Fin 4)).foldl
    (fun d i =>
      (d.set (i.val * 2) (toUInt8 ((params ⟨i.val, by omega⟩).current_ref_raw_ >>> (8 : Nat)))).set
        (i.val * 2 + 1) (toUInt8 (params ⟨i.val, by omega⟩).current_ref_raw_))
    data

/-- The second packing loop of `transmit`, reading `params_[i + 4]`. -/
def pack_high (params : Fin 8 → Params) (data : List Nat) : List Nat :=
  ([0, 1, 2, 3] : List (Fin 4)).foldl
    (fun d i =>
      (d.set (i.val * 2) (toUInt8 ((params ⟨i.val + 4, by omega⟩).current_ref_raw_ >>> (8 : Nat)))).set
        (i.val * 2 + 1) (toUInt8 (params ⟨i.val + 4, by omega⟩).current_ref_raw_))
    data

/-- The method `C6x0Manager::transmit`: returns the result of the call and the
manager afterwards (only the transport has changed). -/
def C6x0Manager.transmit (m : C6x0Manager) : Bool × C6x0Manager :=
  let msg : CanMessage := CanMessage.zero
  let msg := { msg with id := 0x200 }
  let msg := { msg with ide := false }
  let msg := { msg with dlc := 8 }
  let msg := { msg with data := pack_low m.params_ msg.data }
  let r1 := m.can_.transmit msg 5
  if !r1.1 then (false, { m with can_ := r1.2 })
  else
    let msg := { msg with data := msg.data.map (fun _ => 0) }
    let msg := { msg with id := 0x1FF }
    let msg := { msg with data := pack_high m.params_ msg.data }
    let r2 := r1.2.transmit msg 5
    (r2.1, { m with can_ := r2.2 })

/-! ## Accessors -/

/-- The method `C6x0Manager::get_position`. -/
def C6x0Manager.get_position (m : C6x0Manager) (id : C6x0Id) : Int :=
  (m.params_ id.to_underlying).position_

/-- The method `C6x0Manager::get_rpm`. -/
def C6x0Manager.get_rpm (m : C6x0Manager) (id : C6x0Id) : Int :=
  (m.params_ id.to_underlying).rpm_

/-- The method `C6x0Manager::get_current_raw`. -/
def C6x0Manager.get_current_raw (m : C6x0Manager) (id : C6x0Id) : Int :=
  (m.params_ id.to_underlying).current_raw_

/-- The method `C6x0Manager::set_current_ref_raw`. -/
def C6x0Manager.set_current_ref_raw (m : C6x0Manager) (id : C6x0Id) (current : Int) :
    C6x0Manager :=
  let motor : Params := { (m.params_ id.to_underlying) with current_ref_raw_ := current }
  { m with params_ := Function.update m.params_ id.to_underlying motor }

/-! ## The C++ type `float`

IEEE 754 binary32 with round-to-nearest, ties-to-even; every `float`
expression of the driver is evaluated in `float`. A finite value is kept as
the rational number it denotes, with negative zero apart. -/

/-- Values of the C++ type `float`. -/
inductive F32 where
  | nan
  | inf (neg : Bool)
  | negZero
  | fin (val : ℚ)
  deriving DecidableEq

namespace F32

/-- Sign bit. -/
def isNeg : F32 → Bool
  | nan => false
  | inf neg => neg
  | negZero => true
  | fin val => decide (val < 0)

/-- Test for `+0` or `-0`. -/
def isZero : F32 → Bool
  | negZero => true
  | fin val => decide (val = 0)
  | _ => false

/-- Zero of the given sign. -/
def zero (neg : Bool) : F32 := if neg then negZero else fin 0

/-- Nearest integer, ties to even. -/
def roundHalfEven (s : ℚ) : Int :=
  let f := ⌊s⌋
  if s - f < 1 / 2 then f
  else if 1 / 2 < s - f then f + 1
  else if f % 2 = 0 then f else f + 1

/-- Rounding of the exact result `q` of an operation to binary32 (24-bit
significand, least quantum `2^-149`, overflow at `2^128`); `neg` is the sign
given to an exact zero. -/
def round (neg : Bool) (q : ℚ) : F32 :=
  if q = 0 then zero neg
  else
    let e : Int := max (Int.log 2 |q| - 23) (-149)
    let r : ℚ := (roundHalfEven (|q| / 2 ^ e) : ℚ) * 2 ^ e
    if 2 ^ 128 ≤ r then inf (decide (q < 0))
    else if r = 0 then zero (decide (q < 0))
    else fin (if q < 0 then -r else r)

/-- The product `x * y` in `float`. -/
def mul : F32 → F32 → F32
  | nan, _ => nan
  | _, nan => nan
  | inf s, y => if y.isZero then nan else inf (xor s y.isNeg)
  | x, inf s => if x.isZero then nan else inf (xor x.isNeg s)
  | negZero, y => zero (xor true y.isNeg)
  | x, negZero => zero (xor x.isNeg true)
  | fin a, fin b => round (xor (decide (a < 0)) (decide (b < 0))) (a * b)

/-- The quotient `x / y` in `float`. -/
def div : F32 → F32 → F32
  | nan, _ => nan
  | _, nan => nan
  | inf _, inf _ => nan
  | inf s, y => inf (xor s y.isNeg)
  | x, inf s => zero (xor x.isNeg s)
  | x, negZero => if x.isZero then nan else inf (xor x.isNeg true)
  | negZero, fin b => if b = 0 then nan else zero (xor true (decide (b < 0)))
  | fin a, fin b =>
    if b = 0 then (if a = 0 then nan else inf (decide (a < 0)))
    else round (xor (decide (a < 0)) (decide (b < 0))) (a / b)

/-- The comparison `x < y` in `float` (false when either side is NaN). -/
def lt : F32 → F32 → Bool
  | nan, _ => false
  | _, nan => false
  | inf s, inf t => s && !t
  | inf s, _ => s
  | _, inf t => !t
  | negZero, negZero => false
  | negZero, fin b => decide (0 < b)
  | fin a, negZero => decide (a < 0)
  | fin a, fin b => decide (a < b)

/-- The comparison `x <= y` in `float` (false when either side is NaN). -/
def le : F32 → F32 → Bool
  | nan, _ => false
  | _, nan => false
  | x, y => !lt y x

/-- Conversion `float` to `int16_t`: truncation toward zero; not defined (`none`)
for NaN, infinities and values whose truncation is outside `int16_t`. -/
def toInt16 : F32 → Option Int
  | nan => none
  | inf _ => none
  | negZero => some 0
  | fin val =>
    let t : Int := if 0 ≤ val then ⌊val⌋ else ⌈val⌉
    if -32768 ≤ t ∧ t ≤ 32767 then some t else none

end F32

/-- The function `std::clamp(v, lo, hi)` on `float`:
`(v < lo) ? lo : (hi < v) ? hi : v`. -/
def clamp (v lo hi : F32) : F32 :=
  if F32.lt v lo then lo else if F32.lt hi v then hi else v

/-! ## The per-motor handle `C6x0` -/

/-- A `C6x0` handle: device variant and logical id (the manager it refers to
is passed to each operation). -/
structure C6x0 where
  type_ : C6x0Type
  id_ : C6x0Id
  deriving DecidableEq, Repr

/-- The method `C6x0::get_position`. -/
def C6x0.get_position (h : C6x0) (m : C6x0Manager) : Int := m.get_position h.id_

/-- The method `C6x0::get_rpm`. -/
def C6x0.get_rpm (h : C6x0) (m : C6x0Manager) : Int := m.get_rpm h.id_

/-- The method `C6x0::set_current_ref`. The `float` argument of
`set_current_ref_raw` is converted to `int16_t`; the result is `none` where that
conversion is not defined. -/
def C6x0.set_current_ref (h : C6x0) (m : C6x0Manager) (current : F32) : Option C6x0Manager :=
  match h.type_ with
  | .C610 =>
    (F32.toInt16 (clamp current (.fin (-10000)) (.fin 10000))).map
      (fun raw => m.set_current_ref_raw h.id_ raw)
  | .C620 =>
    (F32.toInt16
      (F32.mul (F32.div (clamp current (.fin (-20000)) (.fin 20000)) (.fin 20000))
        (.fin 16384))).map
      (fun raw => m.set_current_ref_raw h.id_ raw)

/-- The destructor `C6x0::~C6x0`, which calls `set_current_ref(0)`. -/
def C6x0.destroy (h : C6x0) (m : C6x0Manager) : Option C6x0Manager :=
  h.set_current_ref m (.fin 0)


/-! ## Call sequences -/

/-- An event in the life of a manager: the transport delivers a frame into the
receive queue, or the application calls `update`, `transmit` or
`set_current_ref` on a handle. -/
inductive Op where
  | receive (msg : CanMessage)
  | update
  | transmit
  | set_current_ref (handle : C6x0) (current : F32)

/-- The effect of one event on the manager (`none` where the call is not
defined). -/
def Op.apply : Op → C6x0Manager → Option C6x0Manager
  | .receive msg, m => some { m with rx_queue_ := m.rx_queue_ ++ [msg] }
  | .update, m => some m.update
  | .transmit, m => some m.transmit.2
  | .set_current_ref handle current, m => handle.set_current_ref m current

/-- The effect of a sequence of events, in order. -/
def run : List Op → C6x0Manager → Option C6x0Manager
  | [], m => some m
  | op :: ops, m => (op.apply m).bind (run ops)

/-! ## Specification-side definitions -/

/-- The invariant relating `position_` and `prev_position_` of one motor:
congruent modulo 8192 when a sample is present, `position_ = 0` otherwise. -/
def position_sample_congruent (motor : Params) : Prop :=
  match motor.prev_position_ with
  | some raw => (motor.position_ - raw) % 8192 = 0
  | none => motor.position_ = 0

/-- The clamp of variant C610 in the words of the specification. -/
def clamp_C610_spec (v : Int) : Int := min (max v (-10000)) 10000

/-- The wrap correction in the words of the specification, applied to a
sample-to-sample difference `d` with `M = 8192`: `d - M` if `d > M/2`,
`d + M` if `d < -M/2`, `d` otherwise. -/
def wrap_correction_spec (d : Int) : Int :=
  if d > 4096 then d - 8192 else if d < -4096 then d + 8192 else d

/-- The 16-bit twos-complement reading of an unsigned 16-bit pattern `x`. -/
def twos_complement16_spec (x : Nat) : Int :=
  if x < 32768 then (x : Int) else (x : Int) - 65536

/-- A manager right after construction: all motor records value-initialised,
empty receive queue. -/
def C6x0Manager.init (can : CanBase) (filter_index : Nat) : C6x0Manager :=
  { can_ := can, rx_queue_ := [], filter_index_ := filter_index, params_ := fun _ => {} }

/-- A transport that accepts every frame and has seen none so far. -/
def CanBase.idle : CanBase := { accept := fun _ _ => true, offered := [], sent := [] }

/-- A feedback frame with identifier `id` and the given six field bytes. -/
def feedback_frame (id b0 b1 b2 b3 b4 b5 : Nat) : CanMessage :=
  { id := id, ide := false, dlc := 8, data := [b0, b1, b2, b3, b4, b5, 0, 0] }

/-- High byte of the 16-bit twos-complement pattern of `v`. -/
def hi_byte_spec (v : Int) : Nat := ((v % 65536) / 256).toNat

/-- Low byte of the 16-bit twos-complement pattern of `v`. -/
def lo_byte_spec (v : Int) : Nat := ((v % 65536) % 256).toNat

/-- A command frame in the words of the specification: identifier `id`,
standard format, length 8, four signed 16-bit big-endian fields. -/
def command_frame_spec (id : Nat) (c0 c1 c2 c3 : Int) : CanMessage :=
  { id := id, ide := false, dlc := 8,
    data := [hi_byte_spec c0, lo_byte_spec c0, hi_byte_spec c1, lo_byte_spec c1,
             hi_byte_spec c2, lo_byte_spec c2, hi_byte_spec c3, lo_byte_spec c3] }

/-- Frame A of `transmit`: the commands of motors 0..3 under identifier `0x200`. -/
def frame_A_spec (m : C6x0Manager) : CanMessage :=
  command_frame_spec 0x200 (m.params_ 0).current_ref_raw_ (m.params_ 1).current_ref_raw_
    (m.params_ 2).current_ref_raw_ (m.params_ 3).current_ref_raw_

/-- Frame B of `transmit`: the commands of motors 4..7 under identifier `0x1FF`. -/
def frame_B_spec (m : C6x0Manager) : CanMessage :=
  command_frame_spec 0x1FF (m.params_ 4).current_ref_raw_ (m.params_ 5).current_ref_raw_
    (m.params_ 6).current_ref_raw_ (m.params_ 7).current_ref_raw_

/-! ## Basic facts on the machine-integer conversions -/

theorem wrap16_eq_self {x : Int} (h : InInt16 x) : wrap16 x = x := by
  unfold InInt16 at h; unfold wrap16; omega

theorem wrap64_eq_self {x : Int} (h : InInt64 x) : wrap64 x = x := by
  unfold InInt64 at h; unfold wrap64; omega

theorem wrap16_inRange (x : Int) : InInt16 (wrap16 x) := by
  unfold InInt16 wrap16; omega

theorem wrap64_wrap64_add (a d : Int) : wrap64 (wrap64 a + d) = wrap64 (a + d) := by
  unfold wrap64; omega

theorem unwrap_delta_eq (position prev : Int) :
    unwrap_delta position prev = wrap_correction_spec (wrap16 (position - prev)) := by
  have h := wrap16_inRange (position - prev)
  unfold InInt16 at h
  unfold unwrap_delta wrap_correction_spec
  simp only []
  split_ifs with h1 h2
  · exact wrap16_eq_self (by unfold InInt16; omega)
  · exact wrap16_eq_self (by unfold InInt16; omega)
  · rfl

/-! ## One loop iteration -/

theorem update_msg_of_id (params : Fin 8 → Params) (msg : CanMessage) (k : Fin 8)
    (hid : msg.id = 0x201 + k.val) :
    update_msg params msg = Function.update params k (update_motor (params k) msg) := by
  have hk := k.isLt
  have h : 0x201 ≤ msg.id ∧ msg.id < 0x201 + 8 := by omega
  have hidx : (⟨msg.id - 0x201, by omega⟩ : Fin 8) = k := Fin.ext (by simp only []; omega)
  unfold update_msg
  rw [dif_pos h]
  simp only [hidx]

theorem update_msg_of_not_id (params : Fin 8 → Params) (msg : CanMessage)
    (hid : ¬ (0x201 ≤ msg.id ∧ msg.id ≤ 0x208)) : update_msg params msg = params := by
  unfold update_msg
  rw [dif_neg (by omega)]

theorem update_single (m : C6x0Manager) (msg : CanMessage) :
    ({ m with rx_queue_ := [msg] } : C6x0Manager).update.params_ = update_msg m.params_ msg := rfl

theorem update_single_of_id (m : C6x0Manager) (msg : CanMessage) (k : Fin 8)
    (hid : msg.id = 0x201 + k.val) :
    ({ m with rx_queue_ := [msg] } : C6x0Manager).update.params_ k
      = update_motor (m.params_ k) msg := by
  rw [update_single, update_msg_of_id _ _ k hid, Function.update_same]


/-! ## Field decoding -/

theorem shl8_or_eq (a b : Nat) (hb : b < 256) : a <<< 8 ||| b = a * 256 + b := by
  have h := Nat.mul_add_lt_is_or (i := 8) (b := b) (by simpa using hb) a
  rw [Nat.shiftLeft_eq, Nat.mul_comm a (2 ^ 8), ← h]

theorem wrap16_natCast (x : Nat) (hx : x < 65536) :
    wrap16 (x : Int) = twos_complement16_spec x := by
  unfold wrap16 twos_complement16_spec
  split_ifs <;> omega

theorem read_int16_eq (msg : CanMessage) (i : Nat)
    (h0 : msg.byte i < 256) (h1 : msg.byte (i + 1) < 256) :
    read_int16 msg i = twos_complement16_spec (msg.byte i * 256 + msg.byte (i + 1)) := by
  unfold read_int16
  rw [shl8_or_eq _ _ h1, wrap16_natCast _ (by omega)]

theorem unwrap_delta_window (r0 r1 : Int) (h0 : 0 ≤ r0) (h0' : r0 < 8192)
    (h1 : 0 ≤ r1) (h1' : r1 < 8192) :
    unwrap_delta r1 r0 = wrap_correction_spec (r1 - r0) := by
  rw [unwrap_delta_eq, wrap16_eq_self (by unfold InInt16; omega)]

/-! ## Unwrapping along a true trajectory -/

theorem unwrap_delta_true_step (p q : Int) (hstep : |q - p| < 4096) :
    unwrap_delta (q % 8192) (p % 8192) = q - p := by
  rw [unwrap_delta_window _ _ (by omega) (by omega) (by omega) (by omega)]
  rw [abs_lt] at hstep
  unfold wrap_correction_spec
  split_ifs <;> omega

theorem update_motor_tracking (motor : Params) (msg : CanMessage) (p q T : Int)
    (hprev : motor.prev_position_ = some (p % 8192))
    (hpos : motor.position_ = wrap64 T)
    (hr : read_int16 msg 0 = q % 8192)
    (hstep : |q - p| < 4096) :
    (update_motor motor msg).prev_position_ = some (q % 8192)
    ∧ (update_motor motor msg).position_ = wrap64 (T + (q - p)) := by
  simp only [update_motor, hprev, hr, hpos, unwrap_delta_true_step p q hstep,
    wrap64_wrap64_add, and_self]

theorem update_loop_tracking (k : Fin 8) (fs : List CanMessage) (ps : List Int) :
    ∀ (params : Fin 8 → Params) (p T : Int),
      List.Forall₂ (fun f q => f.id = 0x201 + k.val ∧ read_int16 f 0 = q % 8192) fs ps →
      List.Chain (fun a b : Int => |b - a| < 4096) p ps →
      (params k).prev_position_ = some (p % 8192) →
      (params k).position_ = wrap64 T →
      ∀ (i : Nat) (hi : i < ps.length),
        ((update_loop (fs.take (i + 1)) params).2 k).position_ = wrap64 (T + (ps[i] - p)) := by
  intro params p T hfs
  induction hfs generalizing params p T with
  | nil => intro _ _ _ i hi; exact absurd hi (Nat.not_lt_zero _)
  | @cons f q fs ps hfq _ ih =>
    intro hchain hprev hpos i hi
    rw [List.chain_cons] at hchain
    have hstep := update_motor_tracking (params k) f p q T hprev hpos hfq.2 hchain.1
    have hupd : update_msg params f k = update_motor (params k) f := by
      rw [update_msg_of_id params f k hfq.1, Function.update_same]
    cases i with
    | zero =>
      simp only [zero_add, List.take_succ_cons, List.take_zero, update_loop,
        List.getElem_cons_zero]
      rw [hupd]
      exact hstep.2
    | succ j =>
      simp only [List.take_succ_cons, update_loop, List.getElem_cons_succ]
      have hj : j < ps.length := by simpa using hi
      have h := ih (update_msg params f) q (T + (q - p)) hchain.2
        (by rw [hupd]; exact hstep.1) (by rw [hupd]; exact hstep.2) j hj
      rw [h]
      congr 1
      ring

/-- C1 (unwrap correctness under the half-period assumption). Let motor `k` have
no previous sample, let `p0 :: ps` be true integer positions with consecutive
differences of absolute value below 4096, and let `fs` be frames for motor `k`
whose position fields decode to `p mod 8192`, in order. Then after the `i`-th
frame has been processed by `update`, the accumulated `position_` is
`p0 mod 8192 + (p_i - p0)` as a 64-bit value, and it equals that number exactly
whenever the number fits the 64-bit accumulator. -/
theorem C1_unwrap_tracks_true_position (m : C6x0Manager) (k : Fin 8)
    (p0 : Int) (ps : List Int) (fs : List CanMessage)
    (hprev : (m.params_ k).prev_position_ = none)
    (hfs : List.Forall₂ (fun f q => f.id = 0x201 + k.val ∧ read_int16 f 0 = q % 8192)
      fs (p0 :: ps))
    (hstep : List.Chain (fun a b : Int => |b - a| < 4096) p0 ps)
    (i : Nat) (hi : i < (p0 :: ps).length) :
    (({ m with rx_queue_ := fs.take (i + 1) } : C6x0Manager).update.params_ k).position_
        = wrap64 (p0 % 8192 + ((p0 :: ps)[i] - p0))
    ∧ (InInt64 (p0 % 8192 + ((p0 :: ps)[i] - p0)) →
        (({ m with rx_queue_ := fs.take (i + 1) } : C6x0Manager).update.params_ k).position_
          = p0 % 8192 + ((p0 :: ps)[i] - p0)) := by
  have hmain : (({ m with rx_queue_ := fs.take (i + 1) } : C6x0Manager).update.params_
      k).position_ = wrap64 (p0 % 8192 + ((p0 :: ps)[i] - p0)) := by
    cases hfs with
    | @cons f0 _ fs0 _ hf0 hrest =>
      have hbase : update_msg m.params_ f0 k = update_motor (m.params_ k) f0 := by
        rw [update_msg_of_id m.params_ f0 k hf0.1, Function.update_same]
      have hb1 : (update_msg m.params_ f0 k).prev_position_ = some (p0 % 8192) := by
        rw [hbase]; simp only [update_motor, hf0.2]
      have hb2 : (update_msg m.params_ f0 k).position_ = wrap64 (p0 % 8192) := by
        rw [hbase, wrap64_eq_self (by unfold InInt64; omega)]
        simp only [update_motor, hprev, hf0.2]
      cases i with
      | zero =>
        simp only [zero_add, List.take_succ_cons, List.take_zero, C6x0Manager.update,
          update_loop, List.getElem_cons_zero, sub_self, add_zero]
        exact hb2
      | succ j =>
        have hj : j < ps.length := by simpa using hi
        simp only [List.getElem_cons_succ]
        simp only [List.take_succ_cons, C6x0Manager.update, update_loop]
        exact update_loop_tracking k fs0 ps (update_msg m.params_ f0) p0 (p0 % 8192) hrest
          hstep hb1 hb2 j hj
  exact ⟨hmain, fun hfit => by rw [hmain, wrap64_eq_self hfit]⟩

/-- Witness of C1: true positions 8000, 8300, 12000, 16000 (raw samples 8000,
108, 3808, 7808) on motor 2; after the fourth frame the position is 16000. -/
theorem C1_unwrap_tracks_true_position_witness :
    (({ C6x0Manager.init CanBase.idle 0 with
          rx_queue_ := [feedback_frame 0x203 0x1F 0x40 0 0 0 0,
                        feedback_frame 0x203 0x00 0x6C 0 0 0 0,
                        feedback_frame 0x203 0x0E 0xE0 0 0 0 0,
                        feedback_frame 0x203 0x1E 0x80 0 0 0 0].take (3 + 1) }
        : C6x0Manager).update.params_ 2).position_
      = 8000 % 8192 + (([8000, 8300, 12000, 16000] : List Int)[3] - 8000) :=
  (C1_unwrap_tracks_true_position (C6x0Manager.init CanBase.idle 0) 2 8000 [8300, 12000, 16000]
    [feedback_frame 0x203 0x1F 0x40 0 0 0 0, feedback_frame 0x203 0x00 0x6C 0 0 0 0,
     feedback_frame 0x203 0x0E 0xE0 0 0 0 0, feedback_frame 0x203 0x1E 0x80 0 0 0 0]
    (by decide) (by decide) (by simp [abs_lt]) 3 (by decide)).2 (by decide)

/-! ## Claims on `update` -/

/-- C3 (baseline rule). For a motor `k` whose `prev_position_` is absent, whatever
its prior `position_`, processing a frame with identifier `0x201 + k` whose
position field decodes to the 16-bit sample `r` sets `position_ = r` (no delta,
no wrap correction) and `prev_position_ = r`; `r` is a 16-bit signed value. -/
theorem C3_baseline_rule (m : C6x0Manager) (k : Fin 8) (msg : CanMessage) (r : Int)
    (hid : msg.id = 0x201 + k.val)
    (hprev : (m.params_ k).prev_position_ = none)
    (hr : read_int16 msg 0 = r) :
    (({ m with rx_queue_ := [msg] } : C6x0Manager).update.params_ k).position_ = r
    ∧ (({ m with rx_queue_ := [msg] } : C6x0Manager).update.params_ k).prev_position_ = some r
    ∧ InInt16 r := by
  rw [update_single_of_id m msg k hid]
  subst hr
  refine ⟨?_, ?_, wrap16_inRange _⟩
  · simp only [update_motor, hprev]
  · simp only [update_motor]

/-- Witness of C3: a motor holding a stale position 777 and no previous sample
receives the sample `0xFFFE = -2`. -/
theorem C3_baseline_rule_witness :
    (({ ({ C6x0Manager.init CanBase.idle 0 with
            params_ := fun _ => { position_ := 777 } } : C6x0Manager) with
          rx_queue_ := [feedback_frame 0x203 0xFF 0xFE 0 0 0 0] } : C6x0Manager).update.params_
        2).position_ = -2
    ∧ (({ ({ C6x0Manager.init CanBase.idle 0 with
            params_ := fun _ => { position_ := 777 } } : C6x0Manager) with
          rx_queue_ := [feedback_frame 0x203 0xFF 0xFE 0 0 0 0] } : C6x0Manager).update.params_
        2).prev_position_ = some (-2)
    ∧ InInt16 (-2) :=
  C3_baseline_rule
    ({ C6x0Manager.init CanBase.idle 0 with params_ := fun _ => { position_ := 777 } })
    2 (feedback_frame 0x203 0xFF 0xFE 0 0 0 0) (-2) (by decide) (by decide) (by decide)

/-- C2, claim as stated, refuted. A fresh motor receives the samples `-20000`
and then `20000`. Before the second frame the motor holds `position_ = -20000`
and `prev_position_ = -20000`; the integer difference is `40000 > 4096`, so the
claim predicts that `40000 - 8192 = 31808` is added. The code computes the
difference in `int16_t` (`40000` wraps to `-25536`), corrects it to `-17344`
and reaches `-37344`, not `11808`. -/
theorem C2_integer_difference_counterexample :
    (({ C6x0Manager.init CanBase.idle 0 with
          rx_queue_ := [feedback_frame 0x201 0xB1 0xE0 0 0 0 0] } : C6x0Manager).update.params_
        0).position_ = -20000
    ∧ (({ C6x0Manager.init CanBase.idle 0 with
          rx_queue_ := [feedback_frame 0x201 0xB1 0xE0 0 0 0 0] } : C6x0Manager).update.params_
        0).prev_position_ = some (-20000)
    ∧ read_int16 (feedback_frame 0x201 0x4E 0x20 0 0 0 0) 0 = 20000
    ∧ (({ ({ C6x0Manager.init CanBase.idle 0 with
          rx_queue_ := [feedback_frame 0x201 0xB1 0xE0 0 0 0 0] } : C6x0Manager).update with
          rx_queue_ := [feedback_frame 0x201 0x4E 0x20 0 0 0 0] } : C6x0Manager).update.params_
        0).position_ = -37344
    ∧ -20000 + wrap_correction_spec (20000 - (-20000)) = 11808 := by
  decide

/-- C2 (wrap correction, amended). For a motor `k` holding a previous sample
`r0`, processing a frame with identifier `0x201 + k` whose position field
decodes to `r1` adds to the 64-bit `position_` the wrap correction of
`d = wrap16 (r1 - r0)`, the difference of the two samples in 16-bit signed
arithmetic: `d - 8192` if `d > 4096`, `d + 8192` if `d < -4096`, `d` otherwise.
`d` is the integer difference `r1 - r0` whenever that lies in
`[-32768, 32767]`, and the addition is exact whenever the sum fits `int64_t`. -/
theorem C2_wrap_correction (m : C6x0Manager) (k : Fin 8) (msg : CanMessage) (r0 r1 : Int)
    (hid : msg.id = 0x201 + k.val)
    (hprev : (m.params_ k).prev_position_ = some r0)
    (hr : read_int16 msg 0 = r1) :
    (({ m with rx_queue_ := [msg] } : C6x0Manager).update.params_ k).position_
        = wrap64 ((m.params_ k).position_ + wrap_correction_spec (wrap16 (r1 - r0)))
    ∧ (InInt64 ((m.params_ k).position_ + wrap_correction_spec (wrap16 (r1 - r0))) →
        (({ m with rx_queue_ := [msg] } : C6x0Manager).update.params_ k).position_
          = (m.params_ k).position_ + wrap_correction_spec (wrap16 (r1 - r0)))
    ∧ (InInt16 (r1 - r0) → wrap16 (r1 - r0) = r1 - r0) := by
  have hpos : (({ m with rx_queue_ := [msg] } : C6x0Manager).update.params_ k).position_
      = wrap64 ((m.params_ k).position_ + wrap_correction_spec (wrap16 (r1 - r0))) := by
    rw [update_single_of_id m msg k hid]
    subst hr
    simp only [update_motor, hprev, unwrap_delta_eq]
  refine ⟨hpos, fun hfit => ?_, fun h16 => wrap16_eq_self h16⟩
  rw [hpos, wrap64_eq_self hfit]

/-- Witness of C2: previous sample 100, next sample 4300 on motor 0 with
position 100: the difference 4200 is corrected to -3992. -/
theorem C2_wrap_correction_witness :
    (({ ({ C6x0Manager.init CanBase.idle 0 with
            params_ := fun _ => { position_ := 100, prev_position_ := some 100 } }
          : C6x0Manager) with
          rx_queue_ := [feedback_frame 0x201 0x10 0xCC 0 0 0 0] } : C6x0Manager).update.params_
        0).position_ = 100 + (4200 - 8192) := by
  have h := C2_wrap_correction
    ({ C6x0Manager.init CanBase.idle 0 with
        params_ := fun _ => { position_ := 100, prev_position_ := some 100 } })
    0 (feedback_frame 0x201 0x10 0xCC 0 0 0 0) 100 4300 (by decide) (by decide) (by decide)
  exact h.2.1 (by decide)

/-- C4 (short-path rule). For consecutive raw samples `r0`, `r1` inside the
sensor window `[0, 8192)`, the delta `unwrap_delta r1 r0` that `update` adds to
the 64-bit `position_` lies in `[-4096, 4096]` and is congruent to `r1 - r0`
modulo 8192; a difference above 4096 is applied as `r1 - r0 - 8192` and one
below -4096 as `r1 - r0 + 8192` (the opposite-direction short path). Worked
scenario: the raw sequence 100, 4300, 200 on a fresh motor yields the positions
100, -3892, 200. -/
theorem C4_short_path_rule :
    (∀ (m : C6x0Manager) (k : Fin 8) (msg : CanMessage) (r0 r1 : Int),
      msg.id = 0x201 + k.val →
      (m.params_ k).prev_position_ = some r0 →
      read_int16 msg 0 = r1 →
      0 ≤ r0 → r0 < 8192 → 0 ≤ r1 → r1 < 8192 →
        (({ m with rx_queue_ := [msg] } : C6x0Manager).update.params_ k).position_
            = wrap64 ((m.params_ k).position_ + unwrap_delta r1 r0)
        ∧ -4096 ≤ unwrap_delta r1 r0 ∧ unwrap_delta r1 r0 ≤ 4096
        ∧ (unwrap_delta r1 r0 - (r1 - r0)) % 8192 = 0
        ∧ (4096 < r1 - r0 → unwrap_delta r1 r0 = r1 - r0 - 8192)
        ∧ (r1 - r0 < -4096 → unwrap_delta r1 r0 = r1 - r0 + 8192))
    ∧ (({ C6x0Manager.init CanBase.idle 0 with
          rx_queue_ := [feedback_frame 0x201 0x00 0x64 0 0 0 0] }
          : C6x0Manager).update.params_ 0).position_ = 100
    ∧ (({ C6x0Manager.init CanBase.idle 0 with
          rx_queue_ := [feedback_frame 0x201 0x00 0x64 0 0 0 0,
                        feedback_frame 0x201 0x10 0xCC 0 0 0 0] }
          : C6x0Manager).update.params_ 0).position_ = -3892
    ∧ (({ C6x0Manager.init CanBase.idle 0 with
          rx_queue_ := [feedback_frame 0x201 0x00 0x64 0 0 0 0,
                        feedback_frame 0x201 0x10 0xCC 0 0 0 0,
                        feedback_frame 0x201 0x00 0xC8 0 0 0 0] }
          : C6x0Manager).update.params_ 0).position_ = 200 := by
  refine ⟨?_, by decide, by decide, by decide⟩
  intro m k msg r0 r1 hid hprev hr h0 h0' h1 h1'
  have hd := unwrap_delta_window r0 r1 h0 h0' h1 h1'
  refine ⟨?_, ?_, ?_, ?_, ?_, ?_⟩
  · rw [update_single_of_id m msg k hid]
    subst hr
    simp only [update_motor, hprev]
  all_goals (rw [hd]; unfold wrap_correction_spec; split_ifs <;> omega)

/-- Witness of C4: the general part at `r0 = 100`, `r1 = 4300` on motor 0. -/
theorem C4_short_path_rule_witness :
    -4096 ≤ unwrap_delta 4300 100 ∧ unwrap_delta 4300 100 ≤ 4096
    ∧ (unwrap_delta 4300 100 - (4300 - 100)) % 8192 = 0 :=
  have h := C4_short_path_rule.1
    ({ C6x0Manager.init CanBase.idle 0 with
        params_ := fun _ => { position_ := 100, prev_position_ := some 100 } })
    0 (feedback_frame 0x201 0x10 0xCC 0 0 0 0) 100 4300 (by decide) (by decide) (by decide)
    (by decide) (by decide) (by decide) (by decide)
  ⟨h.2.1, h.2.2.1, h.2.2.2.1⟩

/-- C5 (feedback decoding). Processing a frame with identifier `0x201 + k`
(`k = 0..7`) and payload bytes `b0..b7` updates motor `k` only and sets its
`prev_position_` to the 16-bit twos-complement value of `b0*256 + b1`, its
`rpm_` to that of `b2*256 + b3` and its `current_raw_` to that of `b4*256 + b5`;
replacing `b6`, `b7` by any other bytes yields the same manager state. -/
theorem C5_feedback_decoding (m : C6x0Manager) (k : Fin 8) (ide : Bool) (dlc : Nat)
    (b0 b1 b2 b3 b4 b5 b6 b7 : Nat)
    (h0 : b0 < 256) (h1 : b1 < 256) (h2 : b2 < 256) (h3 : b3 < 256)
    (h4 : b4 < 256) (h5 : b5 < 256) :
    (({ m with rx_queue_ := [⟨0x201 + k.val, ide, dlc, [b0, b1, b2, b3, b4, b5, b6, b7]⟩] }
        : C6x0Manager).update.params_ k).prev_position_
      = some (twos_complement16_spec (b0 * 256 + b1))
    ∧ (({ m with rx_queue_ := [⟨0x201 + k.val, ide, dlc, [b0, b1, b2, b3, b4, b5, b6, b7]⟩] }
        : C6x0Manager).update.params_ k).rpm_
      = twos_complement16_spec (b2 * 256 + b3)
    ∧ (({ m with rx_queue_ := [⟨0x201 + k.val, ide, dlc, [b0, b1, b2, b3, b4, b5, b6, b7]⟩] }
        : C6x0Manager).update.params_ k).current_raw_
      = twos_complement16_spec (b4 * 256 + b5)
    ∧ (∀ j : Fin 8, j ≠ k →
        ({ m with rx_queue_ := [⟨0x201 + k.val, ide, dlc, [b0, b1, b2, b3, b4, b5, b6, b7]⟩] }
          : C6x0Manager).update.params_ j = m.params_ j)
    ∧ (∀ c6 c7 : Nat,
        ({ m with rx_queue_ := [⟨0x201 + k.val, ide, dlc, [b0, b1, b2, b3, b4, b5, c6, c7]⟩] }
          : C6x0Manager).update
        = ({ m with rx_queue_ := [⟨0x201 + k.val, ide, dlc, [b0, b1, b2, b3, b4, b5, b6, b7]⟩] }
          : C6x0Manager).update) := by
  refine ⟨?_, ?_, ?_, ?_, ?_⟩
  · rw [update_single_of_id m _ k rfl]
    simp only [update_motor]
    rw [read_int16_eq _ _ (by simpa [CanMessage.byte] using h0)
      (by simpa [CanMessage.byte] using h1)]
    simp [CanMessage.byte]
  · rw [update_single_of_id m _ k rfl]
    simp only [update_motor]
    rw [read_int16_eq _ _ (by simpa [CanMessage.byte] using h2)
      (by simpa [CanMessage.byte] using h3)]
    simp [CanMessage.byte]
  · rw [update_single_of_id m _ k rfl]
    simp only [update_motor]
    rw [read_int16_eq _ _ (by simpa [CanMessage.byte] using h4)
      (by simpa [CanMessage.byte] using h5)]
    simp [CanMessage.byte]
  · intro j hj
    rw [update_single, update_msg_of_id _ _ k rfl, Function.update_noteq hj]
  · intro c6 c7
    have hp : update_msg m.params_ ⟨0x201 + k.val, ide, dlc, [b0, b1, b2, b3, b4, b5, c6, c7]⟩
        = update_msg m.params_ ⟨0x201 + k.val, ide, dlc, [b0, b1, b2, b3, b4, b5, b6, b7]⟩ := by
      rw [update_msg_of_id _ _ k rfl, update_msg_of_id _ _ k rfl]
      rfl
    simp only [C6x0Manager.update, update_loop, hp]

/-- Witness of C5: the frame `0x205: FF FE 01 00 80 00 AA 55` on a fresh manager
sets motor 4 to sample -2, speed 256 and current -32768. -/
theorem C5_feedback_decoding_witness :
    (({ C6x0Manager.init CanBase.idle 0 with
          rx_queue_ := [⟨0x201 + (4 : Fin 8).val, false, 8,
            [0xFF, 0xFE, 0x01, 0x00, 0x80, 0x00, 0xAA, 0x55]⟩] }
        : C6x0Manager).update.params_ 4).prev_position_ = some (-2)
    ∧ (({ C6x0Manager.init CanBase.idle 0 with
          rx_queue_ := [⟨0x201 + (4 : Fin 8).val, false, 8,
            [0xFF, 0xFE, 0x01, 0x00, 0x80, 0x00, 0xAA, 0x55]⟩] }
        : C6x0Manager).update.params_ 4).rpm_ = 256
    ∧ (({ C6x0Manager.init CanBase.idle 0 with
          rx_queue_ := [⟨0x201 + (4 : Fin 8).val, false, 8,
            [0xFF, 0xFE, 0x01, 0x00, 0x80, 0x00, 0xAA, 0x55]⟩] }
        : C6x0Manager).update.params_ 4).current_raw_ = -32768 :=
  have h := C5_feedback_decoding (C6x0Manager.init CanBase.idle 0) 4 false 8
    0xFF 0xFE 0x01 0x00 0x80 0x00 0xAA 0x55
    (by decide) (by decide) (by decide) (by decide) (by decide) (by decide)
  ⟨h.1, h.2.1, h.2.2.1⟩

theorem update_loop_discard (queue : List CanMessage) (params : Fin 8 → Params)
    (hq : ∀ msg ∈ queue, ¬ (0x201 ≤ msg.id ∧ msg.id ≤ 0x208)) :
    (update_loop queue params).2 = params := by
  induction queue generalizing params with
  | nil => rfl
  | cons msg queue ih =>
    rw [update_loop, update_msg_of_not_id params msg (hq msg (List.mem_cons_self _ _))]
    exact ih params (fun f hf => hq f (List.mem_cons_of_mem _ hf))

/-- C6 (discarding). If every frame in the receive queue has an identifier
outside `0x201..0x208` (the empty queue included), `update` leaves the whole
array `params_` unchanged: `position_`, `prev_position_`, `rpm_`,
`current_raw_` and `current_ref_raw_` of all eight motors. -/
theorem C6_discard_foreign_frames (m : C6x0Manager)
    (hq : ∀ msg ∈ m.rx_queue_, ¬ (0x201 ≤ msg.id ∧ msg.id ≤ 0x208)) :
    m.update.params_ = m.params_
    ∧ ∀ k : Fin 8,
        (m.update.params_ k).position_ = (m.params_ k).position_
        ∧ (m.update.params_ k).prev_position_ = (m.params_ k).prev_position_
        ∧ (m.update.params_ k).rpm_ = (m.params_ k).rpm_
        ∧ (m.update.params_ k).current_raw_ = (m.params_ k).current_raw_
        ∧ (m.update.params_ k).current_ref_raw_ = (m.params_ k).current_ref_raw_ := by
  have h : m.update.params_ = m.params_ := update_loop_discard m.rx_queue_ m.params_ hq
  refine ⟨h, fun k => ?_⟩
  rw [h]
  exact ⟨rfl, rfl, rfl, rfl, rfl⟩

/-- Witness of C6: a queue holding frames `0x200`, `0x209`, `0x1FF` leaves a
manager with a non-trivial motor 1 untouched. -/
theorem C6_discard_foreign_frames_witness :
    ({ C6x0Manager.init CanBase.idle 0 with
        params_ := fun _ => { position_ := 5, prev_position_ := some 5, rpm_ := 7 }
        rx_queue_ := [feedback_frame 0x200 1 2 3 4 5 6, feedback_frame 0x209 1 2 3 4 5 6,
                      feedback_frame 0x1FF 1 2 3 4 5 6] } : C6x0Manager).update.params_
      = fun _ => { position_ := 5, prev_position_ := some 5, rpm_ := 7 } :=
  (C6_discard_foreign_frames
    { C6x0Manager.init CanBase.idle 0 with
        params_ := fun _ => { position_ := 5, prev_position_ := some 5, rpm_ := 7 }
        rx_queue_ := [feedback_frame 0x200 1 2 3 4 5 6, feedback_frame 0x209 1 2 3 4 5 6,
                      feedback_frame 0x1FF 1 2 3 4 5 6] }
    (by decide)).1

/-! ## Claims on `transmit` -/

theorem toUInt8_shr8 (v : Int) : toUInt8 (v >>> (8 : Nat)) = hi_byte_spec v := by
  unfold toUInt8 hi_byte_spec
  have h : v >>> (8 : Nat) = v / 256 := by
    rw [Int.shiftRight_eq_div_pow]; rfl
  rw [h]
  congr 1
  omega

theorem toUInt8_low (v : Int) : toUInt8 v = lo_byte_spec v := by
  unfold toUInt8 lo_byte_spec
  congr 1
  omega

theorem pack_low_zero (params : Fin 8 → Params) :
    pack_low params (List.replicate 8 0)
      = [hi_byte_spec (params 0).current_ref_raw_, lo_byte_spec (params 0).current_ref_raw_,
         hi_byte_spec (params 1).current_ref_raw_, lo_byte_spec (params 1).current_ref_raw_,
         hi_byte_spec (params 2).current_ref_raw_, lo_byte_spec (params 2).current_ref_raw_,
         hi_byte_spec (params 3).current_ref_raw_, lo_byte_spec (params 3).current_ref_raw_] := by
  simp only [← toUInt8_shr8, ← toUInt8_low]
  rfl

theorem pack_high_zero (params : Fin 8 → Params) :
    pack_high params (List.replicate 8 0)
      = [hi_byte_spec (params 4).current_ref_raw_, lo_byte_spec (params 4).current_ref_raw_,
         hi_byte_spec (params 5).current_ref_raw_, lo_byte_spec (params 5).current_ref_raw_,
         hi_byte_spec (params 6).current_ref_raw_, lo_byte_spec (params 6).current_ref_raw_,
         hi_byte_spec (params 7).current_ref_raw_, lo_byte_spec (params 7).current_ref_raw_] := by
  simp only [← toUInt8_shr8, ← toUInt8_low]
  rfl

theorem pack_low_length (params : Fin 8 → Params) (data : List Nat) :
    (pack_low params data).length = data.length := by
  simp [pack_low]

theorem fill_zero_eq (data : List Nat) (h : data.length = 8) :
    data.map (fun _ => 0) = List.replicate 8 0 := by
  rw [← h]
  induction data with
  | nil => rfl
  | cons b data ih => simp [List.replicate_succ]

/-- The two frames `transmit` builds, and its effect, in closed form. -/
theorem transmit_eq (m : C6x0Manager) :
    m.transmit =
      if m.can_.accept m.can_.offered.length (frame_A_spec m) then
        (m.can_.accept (m.can_.offered.length + 1) (frame_B_spec m),
          { m with can_ :=
            { m.can_ with
              offered := m.can_.offered ++ [frame_A_spec m, frame_B_spec m]
              sent := if m.can_.accept (m.can_.offered.length + 1) (frame_B_spec m)
                then m.can_.sent ++ [frame_A_spec m, frame_B_spec m]
                else m.can_.sent ++ [frame_A_spec m] } })
      else
        (false,
          { m with can_ :=
            { m.can_ with offered := m.can_.offered ++ [frame_A_spec m], sent := m.can_.sent } }) := by
  have hA : (⟨0x200, false, 8, pack_low m.params_ (List.replicate 8 0)⟩ : CanMessage)
      = frame_A_spec m := by
    rw [pack_low_zero]; rfl
  have hB : (⟨0x1FF, false, 8, pack_high m.params_ (List.replicate 8 0)⟩ : CanMessage)
      = frame_B_spec m := by
    rw [pack_high_zero]; rfl
  have hfill : (pack_low m.params_ (List.replicate 8 0)).map (fun _ => 0)
      = List.replicate 8 0 :=
    fill_zero_eq _ (by rw [pack_low_length]; rfl)
  unfold C6x0Manager.transmit
  simp only [CanMessage.zero, CanBase.transmit, hA, hB, hfill]
  by_cases h1 : m.can_.accept m.can_.offered.length (frame_A_spec m) = true
  · by_cases h2 : m.can_.accept (m.can_.offered.length + 1) (frame_B_spec m) = true
    · simp [h1, h2]
    · simp [h1, h2]
  · simp [h1]

/-- C7 (command frame layout). The first frame `transmit` offers to the
transport is frame A: identifier `0x200`, standard format, length 8, bytes `2i`
and `2i+1` the high and low byte of the 16-bit twos-complement
`current_ref_raw_` of motor `i` (`i = 0..3`). When the transport accepts it,
the second frame offered is frame B: identifier `0x1FF`, standard format,
length 8, bytes `2i`, `2i+1` the high and low byte of `current_ref_raw_` of
motor `i + 4`. -/
theorem C7_command_frame_layout (m : C6x0Manager) :
    (∃ rest, m.transmit.2.can_.offered = m.can_.offered ++ frame_A_spec m :: rest)
    ∧ (m.can_.accept m.can_.offered.length (frame_A_spec m) = true →
        m.transmit.2.can_.offered = m.can_.offered ++ [frame_A_spec m, frame_B_spec m])
    ∧ ((frame_A_spec m).id = 0x200 ∧ (frame_A_spec m).ide = false ∧ (frame_A_spec m).dlc = 8
        ∧ (frame_A_spec m).data.length = 8
        ∧ ∀ i : Fin 4,
            (frame_A_spec m).byte (2 * i.val)
              = hi_byte_spec (m.params_ ⟨i.val, by omega⟩).current_ref_raw_
            ∧ (frame_A_spec m).byte (2 * i.val + 1)
              = lo_byte_spec (m.params_ ⟨i.val, by omega⟩).current_ref_raw_)
    ∧ ((frame_B_spec m).id = 0x1FF ∧ (frame_B_spec m).ide = false ∧ (frame_B_spec m).dlc = 8
        ∧ (frame_B_spec m).data.length = 8
        ∧ ∀ i : Fin 4,
            (frame_B_spec m).byte (2 * i.val)
              = hi_byte_spec (m.params_ ⟨i.val + 4, by omega⟩).current_ref_raw_
            ∧ (frame_B_spec m).byte (2 * i.val + 1)
              = lo_byte_spec (m.params_ ⟨i.val + 4, by omega⟩).current_ref_raw_) := by
  refine ⟨?_, ?_, ⟨rfl, rfl, rfl, rfl, ?_⟩, ⟨rfl, rfl, rfl, rfl, ?_⟩⟩
  · rw [transmit_eq]
    by_cases hA : m.can_.accept m.can_.offered.length (frame_A_spec m) = true
    · rw [if_pos hA]
      exact ⟨[frame_B_spec m], rfl⟩
    · rw [if_neg hA]
      exact ⟨[], rfl⟩
  · intro hA
    rw [transmit_eq, if_pos hA]
  · intro i
    fin_cases i <;> exact ⟨rfl, rfl⟩
  · intro i
    fin_cases i <;> exact ⟨rfl, rfl⟩

/-- Witness of C7: with commands 1, -2, 256, -32768 on motors 0..3 and
16384, -16384, 0, 255 on motors 4..7 an accepting transport is offered
`0x200: 00 01 FF FE 01 00 80 00` and then `0x1FF: 40 00 C0 00 00 00 00 FF`. -/
theorem C7_command_frame_layout_witness :
    ({ C6x0Manager.init CanBase.idle 0 with
        params_ := fun k => { current_ref_raw_ :=
          [1, -2, 256, -32768, 16384, -16384, 0, 255].getD k.val 0 } }
      : C6x0Manager).transmit.2.can_.offered
      = [⟨0x200, false, 8, [0x00, 0x01, 0xFF, 0xFE, 0x01, 0x00, 0x80, 0x00]⟩,
         ⟨0x1FF, false, 8, [0x40, 0x00, 0xC0, 0x00, 0x00, 0x00, 0x00, 0xFF]⟩] :=
  (C7_command_frame_layout
    { C6x0Manager.init CanBase.idle 0 with
        params_ := fun k => { current_ref_raw_ :=
          [1, -2, 256, -32768, 16384, -16384, 0, 255].getD k.val 0 } }).2.1 rfl

/-- C8 (transmit result). For every manager state and every transport
behaviour, `transmit` returns true if and only if the transport reports
success for frame A (identifier `0x200`) and for frame B (identifier `0x1FF`);
it returns false whenever either transmission fails. -/
theorem C8_transmit_result (m : C6x0Manager) :
    (m.transmit.1 = true ↔
      (m.can_.accept m.can_.offered.length (frame_A_spec m) = true
        ∧ m.can_.accept (m.can_.offered.length + 1) (frame_B_spec m) = true))
    ∧ ((m.can_.accept m.can_.offered.length (frame_A_spec m) = false
        ∨ m.can_.accept (m.can_.offered.length + 1) (frame_B_spec m) = false) →
        m.transmit.1 = false)
    ∧ (frame_A_spec m).id = 0x200 ∧ (frame_B_spec m).id = 0x1FF := by
  have hiff : m.transmit.1 = true ↔
      (m.can_.accept m.can_.offered.length (frame_A_spec m) = true
        ∧ m.can_.accept (m.can_.offered.length + 1) (frame_B_spec m) = true) := by
    rw [transmit_eq]
    by_cases hA : m.can_.accept m.can_.offered.length (frame_A_spec m) = true
    · rw [if_pos hA]
      simp [hA]
    · rw [if_neg hA]
      simp [hA]
  refine ⟨hiff, ?_, rfl, rfl⟩
  intro hfail
  cases hres : m.transmit.1 with
  | false => rfl
  | true =>
    have h := hiff.mp hres
    rcases hfail with hf | hf
    · rw [h.1] at hf; exact absurd hf (by decide)
    · rw [h.2] at hf; exact absurd hf (by decide)

/-- Witness of C8: a transport that rejects exactly its second frame makes
`transmit` return false. -/
theorem C8_transmit_result_witness :
    ({ C6x0Manager.init { accept := fun n _ => decide (n ≠ 1), offered := [], sent := [] } 0
        with params_ := fun _ => { current_ref_raw_ := 300 } } : C6x0Manager).transmit.1
      = false :=
  (C8_transmit_result
    { C6x0Manager.init { accept := fun n _ => decide (n ≠ 1), offered := [], sent := [] } 0
        with params_ := fun _ => { current_ref_raw_ := 300 } }).2.1 (Or.inr rfl)

/-- C9 (partial failure without rollback). If the transport accepts the first
frame and rejects the second, `transmit` returns false, the frames accepted by
the transport during the call are exactly frame A carrying the
`current_ref_raw_` values of motors 0..3, and the motor state `params_` is
unchanged by the call. -/
theorem C9_second_frame_rejected_no_rollback (m : C6x0Manager)
    (hA : m.can_.accept m.can_.offered.length (frame_A_spec m) = true)
    (hB : m.can_.accept (m.can_.offered.length + 1) (frame_B_spec m) = false) :
    m.transmit.1 = false
    ∧ m.transmit.2.can_.sent = m.can_.sent ++ [frame_A_spec m]
    ∧ frame_A_spec m
        = ⟨0x200, false, 8,
            [hi_byte_spec (m.params_ 0).current_ref_raw_, lo_byte_spec (m.params_ 0).current_ref_raw_,
             hi_byte_spec (m.params_ 1).current_ref_raw_, lo_byte_spec (m.params_ 1).current_ref_raw_,
             hi_byte_spec (m.params_ 2).current_ref_raw_, lo_byte_spec (m.params_ 2).current_ref_raw_,
             hi_byte_spec (m.params_ 3).current_ref_raw_, lo_byte_spec (m.params_ 3).current_ref_raw_]⟩
    ∧ m.transmit.2.params_ = m.params_ := by
  rw [transmit_eq, if_pos hA]
  simp [hB, frame_A_spec, command_frame_spec]

/-- Witness of C9: commands 1, -2, 256, -32768 on motors 0..3, a transport that
rejects exactly its second frame: only `0x200: 00 01 FF FE 01 00 80 00` is sent. -/
theorem C9_second_frame_rejected_no_rollback_witness :
    ({ C6x0Manager.init { accept := fun n _ => decide (n ≠ 1), offered := [], sent := [] } 0
        with params_ := fun k => { current_ref_raw_ :=
          [1, -2, 256, -32768, 16384, -16384, 0, 255].getD k.val 0 } }
      : C6x0Manager).transmit.1 = false
    ∧ ({ C6x0Manager.init { accept := fun n _ => decide (n ≠ 1), offered := [], sent := [] } 0
        with params_ := fun k => { current_ref_raw_ :=
          [1, -2, 256, -32768, 16384, -16384, 0, 255].getD k.val 0 } }
      : C6x0Manager).transmit.2.can_.sent
      = [⟨0x200, false, 8, [0x00, 0x01, 0xFF, 0xFE, 0x01, 0x00, 0x80, 0x00]⟩] :=
  have h := C9_second_frame_rejected_no_rollback
    { C6x0Manager.init { accept := fun n _ => decide (n ≠ 1), offered := [], sent := [] } 0
        with params_ := fun k => { current_ref_raw_ :=
          [1, -2, 256, -32768, 16384, -16384, 0, 255].getD k.val 0 } }
    rfl rfl
  ⟨h.1, h.2.1⟩

/-! ## Facts on `float` arithmetic -/

namespace F32

theorem roundHalfEven_intCast (n : Int) : roundHalfEven (n : ℚ) = n := by
  unfold roundHalfEven
  simp

/-- A value that is an integer multiple of its own quantum, below the overflow
threshold, is returned unchanged by rounding. -/
theorem round_exact (neg : Bool) (q : ℚ) (k n : Int) (hq : q ≠ 0)
    (hk : Int.log 2 |q| = k) (hn : |q| = (n : ℚ) * 2 ^ (max (k - 23) (-149)))
    (hlt : |q| < 2 ^ 128) : round neg q = fin q := by
  have hpow : (2 : ℚ) ^ (max (k - 23) (-149)) ≠ 0 := zpow_ne_zero _ (by norm_num)
  have hs : |q| / 2 ^ (max (k - 23) (-149)) = (n : ℚ) := by
    rw [hn, mul_div_assoc, div_self hpow, mul_one]
  have habs : |q| ≠ 0 := abs_ne_zero.mpr hq
  unfold round
  rw [if_neg hq]
  simp only [hk, hs, roundHalfEven_intCast, ← hn]
  rw [if_neg (not_le.mpr hlt), if_neg habs]
  congr 1
  split_ifs with hneg
  · rw [abs_of_neg hneg, neg_neg]
  · rw [abs_of_nonneg (not_lt.mp hneg)]

theorem log2_one : Int.log 2 (1 : ℚ) = 0 := Int.log_one_right 2

theorem log2_16384 : Int.log 2 (16384 : ℚ) = 14 := by
  have h := Int.log_zpow (R := ℚ) (b := 2) (by norm_num) 14
  norm_num at h
  exact h

theorem round_one (neg : Bool) : round neg 1 = fin 1 :=
  round_exact neg 1 0 8388608 (by norm_num) (by rw [abs_one]; exact log2_one)
    (by norm_num) (by norm_num)

theorem round_neg_one (neg : Bool) : round neg (-1) = fin (-1) :=
  round_exact neg (-1) 0 8388608 (by norm_num)
    (by rw [abs_neg, abs_one]; exact log2_one) (by norm_num) (by norm_num)

theorem round_16384 (neg : Bool) : round neg 16384 = fin 16384 :=
  round_exact neg 16384 14 8388608 (by norm_num)
    (by rw [abs_of_pos (by norm_num)]; exact log2_16384) (by norm_num) (by norm_num)

theorem round_neg_16384 (neg : Bool) : round neg (-16384) = fin (-16384) :=
  round_exact neg (-16384) 14 8388608 (by norm_num)
    (by rw [abs_neg, abs_of_pos (by norm_num)]; exact log2_16384) (by norm_num) (by norm_num)

end F32

theorem clamp_of_ge (v : F32) (c : ℚ) (h : F32.le (.fin c) v = true) (hc : 0 < c) :
    clamp v (.fin (-c)) (.fin c) = .fin c := by
  cases v with
  | nan => simp [F32.le] at h
  | inf neg =>
    cases neg with
    | false => simp [clamp, F32.lt]
    | true => simp [F32.le, F32.lt] at h
  | negZero =>
    simp [F32.le, F32.lt] at h
    linarith
  | fin val =>
    simp [F32.le, F32.lt] at h
    have h1 : ¬ val < -c := by linarith
    by_cases h2 : c < val
    · simp [clamp, F32.lt, h1, h2]
    · have : val = c := le_antisymm (not_lt.mp h2) h
      simp [clamp, F32.lt, this, hc]
      intro hneg
      linarith

theorem clamp_of_le (v : F32) (c : ℚ) (h : F32.le v (.fin (-c)) = true) (hc : 0 < c) :
    clamp v (.fin (-c)) (.fin c) = .fin (-c) := by
  cases v with
  | nan => simp [F32.le] at h
  | inf neg =>
    cases neg with
    | false => simp [F32.le, F32.lt] at h
    | true => simp [clamp, F32.lt]
  | negZero =>
    simp [F32.le, F32.lt] at h
    linarith
  | fin val =>
    simp [F32.le, F32.lt] at h
    by_cases h1 : val < -c
    · simp [clamp, F32.lt, h1]
    · have : val = -c := le_antisymm h (not_lt.mp h1)
      simp [clamp, F32.lt, this, hc]
      intro hneg
      linarith

theorem scale_max : F32.toInt16 (F32.mul (F32.div (.fin 20000) (.fin 20000)) (.fin 16384))
    = some 16384 := by
  have hd : F32.div (.fin 20000) (.fin 20000) = .fin 1 := by
    simp [F32.div, F32.round_one]
  have hm : F32.mul (.fin 1) (.fin 16384) = .fin 16384 := by
    simp [F32.mul, F32.round_16384]
  rw [hd, hm]
  simp [F32.toInt16]

theorem scale_min : F32.toInt16 (F32.mul (F32.div (.fin (-20000)) (.fin 20000)) (.fin 16384))
    = some (-16384) := by
  have hd : F32.div (.fin (-20000)) (.fin 20000) = .fin (-1) := by
    have e : (-20000 : ℚ) / 20000 = -1 := by norm_num
    simp [F32.div, e, F32.round_neg_one]
  have hm : F32.mul (.fin (-1)) (.fin 16384) = .fin (-16384) := by
    simp [F32.mul, F32.round_neg_16384]
  have hc : ⌈(-16384 : ℚ)⌉ = -16384 := by exact_mod_cast Int.ceil_intCast (-16384 : Int)
  rw [hd, hm]
  norm_num [F32.toInt16, hc]

/-! ## Claims on `set_current_ref` -/

theorem set_current_ref_raw_stored (m : C6x0Manager) (id : C6x0Id) (raw : Int) :
    ((m.set_current_ref_raw id raw).params_ id.to_underlying).current_ref_raw_ = raw := by
  simp [C6x0Manager.set_current_ref_raw]

/-- C10 (clamp saturation, variant C620). For every motor id and prior state,
`set_current_ref(v)` on a C620 handle with `v >= 20000` stores
`current_ref_raw_ = 16384` for that motor, and with `v <= -20000` it stores
`-16384`. -/
theorem C10_clamp_saturation_C620 (h : C6x0) (m : C6x0Manager) (v : F32)
    (htype : h.type_ = C6x0Type.C620) :
    (F32.le (.fin 20000) v = true →
      ∃ m1, h.set_current_ref m v = some m1
        ∧ (m1.params_ h.id_.to_underlying).current_ref_raw_ = 16384)
    ∧ (F32.le v (.fin (-20000)) = true →
      ∃ m1, h.set_current_ref m v = some m1
        ∧ (m1.params_ h.id_.to_underlying).current_ref_raw_ = -16384) := by
  constructor
  · intro hv
    refine ⟨m.set_current_ref_raw h.id_ 16384, ?_, set_current_ref_raw_stored _ _ _⟩
    simp only [C6x0.set_current_ref, htype]
    rw [clamp_of_ge v 20000 hv (by norm_num), scale_max]
    rfl
  · intro hv
    refine ⟨m.set_current_ref_raw h.id_ (-16384), ?_, set_current_ref_raw_stored _ _ _⟩
    simp only [C6x0.set_current_ref, htype]
    rw [clamp_of_le v 20000 hv (by norm_num), scale_min]
    rfl

/-- Witness of C10: on motor `ID_3` of a fresh manager, `set_current_ref(99999)`
stores 16384 and `set_current_ref(-99999)` stores -16384. -/
theorem C10_clamp_saturation_C620_witness :
    (∃ m1, (⟨C6x0Type.C620, C6x0Id.ID_3⟩ : C6x0).set_current_ref
          (C6x0Manager.init CanBase.idle 0) (.fin 99999) = some m1
        ∧ (m1.params_ C6x0Id.ID_3.to_underlying).current_ref_raw_ = 16384)
    ∧ (∃ m1, (⟨C6x0Type.C620, C6x0Id.ID_3⟩ : C6x0).set_current_ref
          (C6x0Manager.init CanBase.idle 0) (.fin (-99999)) = some m1
        ∧ (m1.params_ C6x0Id.ID_3.to_underlying).current_ref_raw_ = -16384) :=
  ⟨(C10_clamp_saturation_C620 ⟨C6x0Type.C620, C6x0Id.ID_3⟩ (C6x0Manager.init CanBase.idle 0)
      (.fin 99999) rfl).1 (by simp [F32.le, F32.lt]; norm_num),
   (C10_clamp_saturation_C620 ⟨C6x0Type.C620, C6x0Id.ID_3⟩ (C6x0Manager.init CanBase.idle 0)
      (.fin (-99999)) rfl).2 (by simp [F32.le, F32.lt]; norm_num)⟩


/-! ## Further claims on `transmit` -/

/-- C19 (short-circuit on first failure). If the transport rejects frame A
(identifier `0x200`), `transmit` returns false after exactly one transmission
attempt: the only frame offered during the call is frame A, nothing is sent,
and frame B (identifier `0x1FF`) is not offered. -/
theorem C19_short_circuit_on_first_failure (m : C6x0Manager)
    (hA : m.can_.accept m.can_.offered.length (frame_A_spec m) = false) :
    m.transmit.1 = false
    ∧ m.transmit.2.can_.offered = m.can_.offered ++ [frame_A_spec m]
    ∧ m.transmit.2.can_.offered.length = m.can_.offered.length + 1
    ∧ m.transmit.2.can_.sent = m.can_.sent
    ∧ (frame_A_spec m).id = 0x200
    ∧ (∀ msg ∈ [frame_A_spec m], msg.id ≠ 0x1FF) := by
  have hneg : ¬ m.can_.accept m.can_.offered.length (frame_A_spec m) = true := by
    rw [hA]; decide
  rw [transmit_eq, if_neg hneg]
  refine ⟨rfl, rfl, by simp, rfl, rfl, ?_⟩
  intro msg hmsg
  rw [List.mem_singleton] at hmsg
  rw [hmsg]
  show (0x200 : Nat) ≠ 0x1FF
  decide

/-- Witness of C19: a transport that rejects everything is offered one frame. -/
theorem C19_short_circuit_on_first_failure_witness :
    ({ C6x0Manager.init { accept := fun _ _ => false, offered := [], sent := [] } 0
        with params_ := fun _ => { current_ref_raw_ := 300 } } : C6x0Manager).transmit.1 = false
    ∧ ({ C6x0Manager.init { accept := fun _ _ => false, offered := [], sent := [] } 0
        with params_ := fun _ => { current_ref_raw_ := 300 } }
        : C6x0Manager).transmit.2.can_.offered.length = 0 + 1 :=
  have h := C19_short_circuit_on_first_failure
    { C6x0Manager.init { accept := fun _ _ => false, offered := [], sent := [] } 0
        with params_ := fun _ => { current_ref_raw_ := 300 } } rfl
  ⟨h.1, h.2.2.1⟩

/-! ## Further claims on `update` -/

theorem update_loop_queue_empty (queue : List CanMessage) (params : Fin 8 → Params) :
    (update_loop queue params).1 = [] := by
  induction queue generalizing params with
  | nil => rfl
  | cons msg queue ih => exact ih (update_msg params msg)

theorem update_msg_other (params : Fin 8 → Params) (msg : CanMessage) (k : Fin 8)
    (hid : msg.id ≠ 0x201 + k.val) : update_msg params msg k = params k := by
  unfold update_msg
  split_ifs with h
  · rw [Function.update_noteq]
    intro hk
    apply hid
    have := congrArg Fin.val hk
    simp only [] at this
    omega
  · rfl

theorem update_msg_same (params : Fin 8 → Params) (msg : CanMessage) (k : Fin 8)
    (hid : msg.id = 0x201 + k.val) : update_msg params msg k = update_motor (params k) msg := by
  rw [update_msg_of_id params msg k hid, Function.update_same]

/-- The record of motor `k` after the loop is the fold of `update_motor` over
the frames addressed to motor `k`. -/
theorem update_loop_motor (k : Fin 8) (queue : List CanMessage) (params : Fin 8 → Params) :
    (update_loop queue params).2 k
      = (queue.filter (fun msg => decide (msg.id = 0x201 + k.val))).foldl update_motor
          (params k) := by
  induction queue generalizing params with
  | nil => rfl
  | cons msg queue ih =>
    rw [update_loop, ih]
    by_cases hid : msg.id = 0x201 + k.val
    · rw [List.filter_cons_of_pos (by simpa using hid), List.foldl_cons,
        update_msg_same params msg k hid]
    · rw [List.filter_cons_of_neg (by simpa using hid), update_msg_other params msg k hid]

/-- C15 (`update` drains and is idempotent). For every manager state and every
finite queue content `update` ends with the receive queue empty, and a second
`update` with no frame arrived in between leaves the whole manager state, in
particular all motor records, as the first call left it. -/
theorem C15_update_drains_and_is_idempotent (m : C6x0Manager) :
    m.update.rx_queue_ = []
    ∧ m.update.update = m.update
    ∧ m.update.update.params_ = m.update.params_ := by
  have hq : m.update.rx_queue_ = [] := update_loop_queue_empty m.rx_queue_ m.params_
  have hidem : m.update.update = m.update := by
    cases hm : m.update with
    | mk can queue filter_index params =>
      rw [hm] at hq
      simp only [] at hq
      subst hq
      rfl
  exact ⟨hq, hidem, by rw [hidem]⟩

/-- C20 (per-motor independence). For every manager state, queue content and
motor `k`, the record of motor `k` (`position_`, `prev_position_`, `rpm_`,
`current_raw_`) after `update` equals its record after `update` run from the
same state on the queue with every frame whose identifier is not `0x201 + k`
removed. -/
theorem C20_per_motor_independence (m : C6x0Manager) (k : Fin 8) :
    m.update.params_ k
        = ({ m with rx_queue_ := m.rx_queue_.filter (fun msg => decide (msg.id = 0x201 + k.val)) }
            : C6x0Manager).update.params_ k
    ∧ (m.update.params_ k).position_
        = (({ m with rx_queue_ := m.rx_queue_.filter (fun msg => decide (msg.id = 0x201 + k.val)) }
            : C6x0Manager).update.params_ k).position_
    ∧ (m.update.params_ k).prev_position_
        = (({ m with rx_queue_ := m.rx_queue_.filter (fun msg => decide (msg.id = 0x201 + k.val)) }
            : C6x0Manager).update.params_ k).prev_position_
    ∧ (m.update.params_ k).rpm_
        = (({ m with rx_queue_ := m.rx_queue_.filter (fun msg => decide (msg.id = 0x201 + k.val)) }
            : C6x0Manager).update.params_ k).rpm_
    ∧ (m.update.params_ k).current_raw_
        = (({ m with rx_queue_ := m.rx_queue_.filter (fun msg => decide (msg.id = 0x201 + k.val)) }
            : C6x0Manager).update.params_ k).current_raw_ := by
  have h : m.update.params_ k
      = ({ m with rx_queue_ := m.rx_queue_.filter (fun msg => decide (msg.id = 0x201 + k.val)) }
          : C6x0Manager).update.params_ k := by
    show (update_loop m.rx_queue_ m.params_).2 k
      = (update_loop (m.rx_queue_.filter (fun msg => decide (msg.id = 0x201 + k.val)))
          m.params_).2 k
    rw [update_loop_motor, update_loop_motor, List.filter_filter]
    simp
  exact ⟨h, by rw [h], by rw [h], by rw [h], by rw [h]⟩

/-! ## Range of the `float` computations of `set_current_ref` -/

namespace F32

theorem roundHalfEven_le (s : ℚ) (M : Int) (h : s ≤ M) : roundHalfEven s ≤ M := by
  have hfs : ((⌊s⌋ : Int) : ℚ) ≤ s := Int.floor_le s
  have hf : ⌊s⌋ ≤ M := by exact_mod_cast hfs.trans h
  have hstep : ¬ (s - ⌊s⌋ < 1 / 2) → ⌊s⌋ + 1 ≤ M := by
    intro hfrac
    by_contra hlt
    have hM : M ≤ ⌊s⌋ := by omega
    have hMq : (M : ℚ) ≤ ⌊s⌋ := by exact_mod_cast hM
    apply hfrac
    linarith
  unfold roundHalfEven
  simp only []
  split_ifs with h1 h2 h3
  · exact hf
  · exact hstep h1
  · exact hf
  · exact hstep h1

theorem roundHalfEven_nonneg (s : ℚ) (h : 0 ≤ s) : 0 ≤ roundHalfEven s := by
  have hf : 0 ≤ ⌊s⌋ := Int.floor_nonneg.mpr h
  unfold roundHalfEven
  simp only []
  split_ifs <;> omega

/-- Rounding does not leave an interval `[-2^j, 2^j]` with `-149 ≤ j ≤ 127`: the
result is a zero or a finite value of absolute value at most `2^j`. -/
theorem round_bounded (neg : Bool) (q : ℚ) (j : Int) (hj : -149 ≤ j) (hj2 : j ≤ 127)
    (hq : |q| ≤ 2 ^ j) :
    round neg q = negZero ∨ ∃ x, round neg q = fin x ∧ |x| ≤ 2 ^ j := by
  have hpowj : (0 : ℚ) ≤ 2 ^ j := le_of_lt (zpow_pos (by norm_num) j)
  by_cases hq0 : q = 0
  · unfold round
    rw [if_pos hq0]
    cases neg with
    | true => exact Or.inl rfl
    | false => exact Or.inr ⟨0, rfl, by rw [abs_zero]; exact hpowj⟩
  · have ha : 0 < |q| := abs_pos.mpr hq0
    have hL : Int.log 2 |q| ≤ j := by
      have h := Int.log_mono_right (b := 2) ha hq
      have h2 : Int.log 2 ((2 : ℚ) ^ j) = j := by
        have h3 := Int.log_zpow (R := ℚ) (b := 2) (by norm_num) j
        simpa using h3
      rwa [h2] at h
    have he : max (Int.log 2 |q| - 23) (-149) ≤ j := max_le (by omega) hj
    have hpe : (0 : ℚ) < 2 ^ (max (Int.log 2 |q| - 23) (-149)) := zpow_pos (by norm_num) _
    obtain ⟨d, hd⟩ := Int.eq_ofNat_of_zero_le (sub_nonneg.mpr he)
    have hM : ((2 ^ d : Int) : ℚ) * 2 ^ (max (Int.log 2 |q| - 23) (-149)) = 2 ^ j := by
      have hj' : j = (d : Int) + max (Int.log 2 |q| - 23) (-149) := by omega
      rw [hj', zpow_add₀ (by norm_num), zpow_natCast]
      push_cast
      rfl
    have hs : |q| / 2 ^ (max (Int.log 2 |q| - 23) (-149)) ≤ ((2 ^ d : Int) : ℚ) := by
      rw [div_le_iff₀ hpe, hM]
      exact hq
    have hN := roundHalfEven_le _ _ hs
    have hN0 := roundHalfEven_nonneg (|q| / 2 ^ (max (Int.log 2 |q| - 23) (-149)))
      (div_nonneg ha.le hpe.le)
    have hr : (roundHalfEven (|q| / 2 ^ (max (Int.log 2 |q| - 23) (-149))) : ℚ)
        * 2 ^ (max (Int.log 2 |q| - 23) (-149)) ≤ 2 ^ j := by
      rw [← hM]
      exact mul_le_mul_of_nonneg_right (by exact_mod_cast hN) hpe.le
    have hr0 : (0 : ℚ) ≤ (roundHalfEven (|q| / 2 ^ (max (Int.log 2 |q| - 23) (-149))) : ℚ)
        * 2 ^ (max (Int.log 2 |q| - 23) (-149)) :=
      mul_nonneg (by exact_mod_cast hN0) hpe.le
    have hbig : (2 : ℚ) ^ j < 2 ^ 128 := by
      have h := zpow_lt_zpow_right₀ (a := (2 : ℚ)) (by norm_num) (show j < 128 by omega)
      exact_mod_cast h
    unfold round
    rw [if_neg hq0]
    simp only []
    rw [if_neg (not_le.mpr (lt_of_le_of_lt hr hbig))]
    split_ifs with h0 hneg
    · rcases Bool.eq_false_or_eq_true (decide (q < 0)) with hb | hb
      · rw [hb]; exact Or.inl rfl
      · rw [hb]; exact Or.inr ⟨0, rfl, by rw [abs_zero]; exact hpowj⟩
    · exact Or.inr ⟨_, rfl, by rw [abs_neg, abs_of_nonneg hr0]; exact hr⟩
    · exact Or.inr ⟨_, rfl, by rw [abs_of_nonneg hr0]; exact hr⟩

theorem toInt16_bounded (x : ℚ) (B : Int) (hB : B ≤ 32767) (hx : |x| ≤ B) :
    ∃ t, toInt16 (fin x) = some t ∧ -B ≤ t ∧ t ≤ B := by
  rw [abs_le] at hx
  have ht : -B ≤ (if 0 ≤ x then ⌊x⌋ else ⌈x⌉) ∧ (if 0 ≤ x then ⌊x⌋ else ⌈x⌉) ≤ B := by
    split_ifs with h0
    · constructor
      · have := Int.floor_nonneg.mpr h0
        have hB0 : (0 : ℚ) ≤ B := h0.trans hx.2
        have : (0 : Int) ≤ B := by exact_mod_cast hB0
        omega
      · have h1 : ((⌊x⌋ : Int) : ℚ) ≤ x := Int.floor_le x
        exact_mod_cast h1.trans hx.2
    · constructor
      · have h1 : x ≤ ((⌈x⌉ : Int) : ℚ) := Int.le_ceil x
        have h2 : ((-B : Int) : ℚ) ≤ ⌈x⌉ := by push_cast; exact hx.1.trans h1
        exact_mod_cast h2
      · have hx0 : x ≤ ((0 : Int) : ℚ) := by push_cast; exact le_of_lt (not_le.mp h0)
        have h1 : ⌈x⌉ ≤ 0 := Int.ceil_le.mpr hx0
        have hB0 : (0 : ℚ) ≤ B := by
          have := hx.1.trans hx.2
          linarith
        have : (0 : Int) ≤ B := by exact_mod_cast hB0
        omega
  refine ⟨if 0 ≤ x then ⌊x⌋ else ⌈x⌉, ?_, ht⟩
  unfold toInt16
  simp only []
  rw [if_pos ⟨by omega, by omega⟩]

end F32

theorem clamp_bounded (v : F32) (c : ℚ) (hv : v ≠ F32.nan) (hc : 0 < c) :
    clamp v (.fin (-c)) (.fin c) = F32.negZero
    ∨ ∃ x, clamp v (.fin (-c)) (.fin c) = F32.fin x ∧ |x| ≤ c := by
  cases v with
  | nan => exact absurd rfl hv
  | inf neg =>
    cases neg with
    | false => exact Or.inr ⟨c, by simp [clamp, F32.lt], by rw [abs_of_pos hc]⟩
    | true => exact Or.inr ⟨-c, by simp [clamp, F32.lt], by rw [abs_neg, abs_of_pos hc]⟩
  | negZero =>
    refine Or.inl ?_
    have h1 : ¬ (0 : ℚ) < -c := by linarith
    have h2 : ¬ c < 0 := by linarith
    simp [clamp, F32.lt, h1, h2]
  | fin val =>
    by_cases h1 : val < -c
    · exact Or.inr ⟨-c, by simp [clamp, F32.lt, h1], by rw [abs_neg, abs_of_pos hc]⟩
    · by_cases h2 : c < val
      · exact Or.inr ⟨c, by simp [clamp, F32.lt, h1, h2], by rw [abs_of_pos hc]⟩
      · exact Or.inr ⟨val, by simp [clamp, F32.lt, h1, h2],
          abs_le.mpr ⟨not_lt.mp h1, not_lt.mp h2⟩⟩

/-! ## Effect of `set_current_ref` -/

theorem F32.toInt16_intCast (k : Int) (hk : InInt16 k) :
    F32.toInt16 (.fin (k : ℚ)) = some k := by
  unfold InInt16 at hk
  unfold F32.toInt16
  simp only [Int.floor_intCast, Int.ceil_intCast, ite_self]
  rw [if_pos ⟨hk.1, hk.2⟩]

theorem set_current_ref_some (h : C6x0) (m m1 : C6x0Manager) (v : F32)
    (hs : h.set_current_ref m v = some m1) :
    ∃ raw, m1 = m.set_current_ref_raw h.id_ raw := by
  unfold C6x0.set_current_ref at hs
  cases htype : h.type_ with
  | C610 =>
    rw [htype] at hs
    simp only [Option.map_eq_some'] at hs
    obtain ⟨raw, _, hraw⟩ := hs
    exact ⟨raw, hraw.symm⟩
  | C620 =>
    rw [htype] at hs
    simp only [Option.map_eq_some'] at hs
    obtain ⟨raw, _, hraw⟩ := hs
    exact ⟨raw, hraw.symm⟩

theorem set_current_ref_raw_feedback (m : C6x0Manager) (id : C6x0Id) (raw : Int) (j : Fin 8) :
    ((m.set_current_ref_raw id raw).params_ j).position_ = (m.params_ j).position_
    ∧ ((m.set_current_ref_raw id raw).params_ j).prev_position_ = (m.params_ j).prev_position_
    ∧ ((m.set_current_ref_raw id raw).params_ j).rpm_ = (m.params_ j).rpm_
    ∧ ((m.set_current_ref_raw id raw).params_ j).current_raw_ = (m.params_ j).current_raw_ := by
  unfold C6x0Manager.set_current_ref_raw
  by_cases hj : j = id.to_underlying
  · subst hj
    simp only [Function.update_same, and_self]
  · simp only [Function.update_noteq hj, and_self]

theorem set_current_ref_raw_other (m : C6x0Manager) (id : C6x0Id) (raw : Int) (j : Fin 8)
    (hj : j ≠ id.to_underlying) :
    (m.set_current_ref_raw id raw).params_ j = m.params_ j := by
  unfold C6x0Manager.set_current_ref_raw
  simp only [Function.update_noteq hj]

/-- For every request other than NaN, `set_current_ref` is defined and stores a
value of `int16_t`. -/
theorem set_current_ref_defined (h : C6x0) (m : C6x0Manager) (v : F32) (hv : v ≠ F32.nan) :
    ∃ raw, InInt16 raw ∧ h.set_current_ref m v = some (m.set_current_ref_raw h.id_ raw) := by
  unfold C6x0.set_current_ref
  cases htype : h.type_ with
  | C610 =>
    simp only []
    rcases clamp_bounded v 10000 hv (by norm_num) with hz | ⟨x, hx, hxb⟩
    · rw [hz]
      exact ⟨0, by decide, rfl⟩
    · rw [hx]
      obtain ⟨t, ht, ht1, ht2⟩ := F32.toInt16_bounded x 10000 (by norm_num)
        (by push_cast; exact hxb)
      rw [ht]
      exact ⟨t, ⟨by omega, by omega⟩, rfl⟩
  | C620 =>
    simp only []
    rcases clamp_bounded v 20000 hv (by norm_num) with hz | ⟨x, hx, hxb⟩
    · rw [hz]
      have hd : F32.div .negZero (.fin 20000) = .negZero := by
        simp [F32.div, F32.zero]
      have hm : F32.mul .negZero (.fin 16384) = .negZero := by
        simp [F32.mul, F32.zero, F32.isNeg]
      rw [hd, hm]
      exact ⟨0, by decide, rfl⟩
    · rw [hx]
      have hd : F32.div (.fin x) (.fin 20000)
          = F32.round (xor (decide (x < 0)) (decide ((20000 : ℚ) < 0))) (x / 20000) := by
        simp [F32.div]
      have hq : |x / 20000| ≤ (2 : ℚ) ^ (0 : Int) := by
        rw [abs_div, abs_of_pos (show (0 : ℚ) < 20000 by norm_num), zpow_zero,
          div_le_one (by norm_num)]
        exact hxb
      have hfinal : ∀ y : F32, (y = .negZero ∨ ∃ z, y = .fin z ∧ |z| ≤ (2 : ℚ) ^ (0 : Int)) →
          ∃ raw, InInt16 raw ∧ (F32.toInt16 (F32.mul y (.fin 16384))).map
            (fun raw => m.set_current_ref_raw h.id_ raw) = some (m.set_current_ref_raw h.id_ raw) := by
        intro y hy
        rcases hy with hy | ⟨z, hy, hz⟩
        · rw [hy]
          have hm : F32.mul .negZero (.fin 16384) = .negZero := by
            simp [F32.mul, F32.zero, F32.isNeg]
          rw [hm]
          exact ⟨0, by decide, rfl⟩
        · rw [hy]
          have hm : F32.mul (.fin z) (.fin 16384)
              = F32.round (xor (decide (z < 0)) (decide ((16384 : ℚ) < 0))) (z * 16384) := by
            simp [F32.mul]
          have hq2 : |z * 16384| ≤ (2 : ℚ) ^ (14 : Int) := by
            rw [zpow_zero] at hz
            rw [abs_mul, abs_of_pos (show (0 : ℚ) < 16384 by norm_num)]
            have h14 : (2 : ℚ) ^ (14 : Int) = 16384 := by norm_num
            rw [h14]
            nlinarith [abs_nonneg z]
          rw [hm]
          rcases F32.round_bounded _ _ 14 (by norm_num) (by norm_num) hq2 with hr | ⟨w, hr, hw⟩
          · rw [hr]
            exact ⟨0, by decide, rfl⟩
          · rw [hr]
            have h14 : (2 : ℚ) ^ (14 : Int) = ((16384 : Int) : ℚ) := by norm_num
            rw [h14] at hw
            obtain ⟨t, ht, ht1, ht2⟩ := F32.toInt16_bounded w 16384 (by norm_num) hw
            rw [ht]
            exact ⟨t, ⟨by omega, by omega⟩, rfl⟩
      rw [hd]
      exact hfinal _ (F32.round_bounded _ _ 0 (by norm_num) (by norm_num) hq)

theorem clamp_C610_intCast (n : Int) :
    clamp (.fin (n : ℚ)) (.fin (-10000)) (.fin 10000)
      = .fin ((clamp_C610_spec n : Int) : ℚ) := by
  unfold clamp clamp_C610_spec
  by_cases h1 : n < -10000
  · have h1q : (n : ℚ) < -10000 := by exact_mod_cast h1
    have hmax : max n (-10000) = -10000 := max_eq_right (by omega)
    simp [F32.lt, h1q, hmax]
  · have h1q : ¬ (n : ℚ) < -10000 := by
      intro hlt
      apply h1
      exact_mod_cast hlt
    have hmax : max n (-10000) = n := max_eq_left (by omega)
    by_cases h2 : 10000 < n
    · have h2q : (10000 : ℚ) < n := by exact_mod_cast h2
      have hmin : min n 10000 = 10000 := min_eq_right (by omega)
      simp [F32.lt, h1q, h2q, hmax, hmin]
    · have h2q : ¬ (10000 : ℚ) < n := by
        intro hlt
        apply h2
        exact_mod_cast hlt
      have hmin : min n 10000 = n := min_eq_left (by omega)
      simp [F32.lt, h1q, h2q, hmax, hmin]

theorem clamp_C610_spec_range (n : Int) :
    -10000 ≤ clamp_C610_spec n ∧ clamp_C610_spec n ≤ 10000 := by
  unfold clamp_C610_spec
  omega

/-- C11 (variant C610: clamped, unscaled). For every motor id, every prior state
and every integer-valued request `v`, `set_current_ref(v)` on a C610 handle
stores `current_ref_raw_ = min(max(v, -10000), 10000)` for that motor; the stored
command lies in `[-10000, 10000]` and equals `v` whenever `|v| <= 10000`. The
integer-valued request `-0.0` stores 0. -/
theorem C11_C610_command_clamped_unscaled (h : C6x0) (m : C6x0Manager) (n : Int)
    (htype : h.type_ = C6x0Type.C610) :
    (∃ m1, h.set_current_ref m (.fin (n : ℚ)) = some m1
      ∧ (m1.params_ h.id_.to_underlying).current_ref_raw_ = min (max n (-10000)) 10000
      ∧ -10000 ≤ (m1.params_ h.id_.to_underlying).current_ref_raw_
      ∧ (m1.params_ h.id_.to_underlying).current_ref_raw_ ≤ 10000
      ∧ (|n| ≤ 10000 → (m1.params_ h.id_.to_underlying).current_ref_raw_ = n))
    ∧ (∃ m1, h.set_current_ref m .negZero = some m1
      ∧ (m1.params_ h.id_.to_underlying).current_ref_raw_ = 0) := by
  have hrange := clamp_C610_spec_range n
  constructor
  · refine ⟨m.set_current_ref_raw h.id_ (clamp_C610_spec n), ?_, ?_⟩
    · simp only [C6x0.set_current_ref, htype]
      rw [clamp_C610_intCast, F32.toInt16_intCast _ ⟨by omega, by omega⟩]
      rfl
    · rw [set_current_ref_raw_stored]
      refine ⟨rfl, hrange.1, hrange.2, ?_⟩
      intro habs
      rw [abs_le] at habs
      unfold clamp_C610_spec
      omega
  · refine ⟨m.set_current_ref_raw h.id_ 0, ?_, set_current_ref_raw_stored _ _ _⟩
    simp only [C6x0.set_current_ref, htype]
    have hc : clamp .negZero (.fin (-10000)) (.fin 10000) = .negZero := by
      norm_num [clamp, F32.lt]
    rw [hc]
    rfl

/-- Witness of C11: on motor `ID_5`, the requests 12345, -7 and -12345 store
10000, -7 and -10000. -/
theorem C11_C610_command_clamped_unscaled_witness :
    (∃ m1, (⟨C6x0Type.C610, C6x0Id.ID_5⟩ : C6x0).set_current_ref
          (C6x0Manager.init CanBase.idle 0) (.fin ((12345 : Int) : ℚ)) = some m1
        ∧ (m1.params_ C6x0Id.ID_5.to_underlying).current_ref_raw_ = 10000)
    ∧ (∃ m1, (⟨C6x0Type.C610, C6x0Id.ID_5⟩ : C6x0).set_current_ref
          (C6x0Manager.init CanBase.idle 0) (.fin ((-7 : Int) : ℚ)) = some m1
        ∧ (m1.params_ C6x0Id.ID_5.to_underlying).current_ref_raw_ = -7)
    ∧ (∃ m1, (⟨C6x0Type.C610, C6x0Id.ID_5⟩ : C6x0).set_current_ref
          (C6x0Manager.init CanBase.idle 0) (.fin ((-12345 : Int) : ℚ)) = some m1
        ∧ (m1.params_ C6x0Id.ID_5.to_underlying).current_ref_raw_ = -10000) := by
  obtain ⟨a, ha, hav, _⟩ := (C11_C610_command_clamped_unscaled ⟨C6x0Type.C610, C6x0Id.ID_5⟩
    (C6x0Manager.init CanBase.idle 0) 12345 rfl).1
  obtain ⟨b, hb, hbv, _⟩ := (C11_C610_command_clamped_unscaled ⟨C6x0Type.C610, C6x0Id.ID_5⟩
    (C6x0Manager.init CanBase.idle 0) (-7) rfl).1
  obtain ⟨c, hc, hcv, _⟩ := (C11_C610_command_clamped_unscaled ⟨C6x0Type.C610, C6x0Id.ID_5⟩
    (C6x0Manager.init CanBase.idle 0) (-12345) rfl).1
  exact ⟨⟨a, ha, hav.trans (by decide)⟩, ⟨b, hb, hbv.trans (by decide)⟩,
    ⟨c, hc, hcv.trans (by decide)⟩⟩

theorem destroy_eq (h : C6x0) (m : C6x0Manager) :
    h.destroy m = some (m.set_current_ref_raw h.id_ 0) := by
  have h0 : F32.toInt16 (.fin 0) = some 0 := by
    have := F32.toInt16_intCast 0 (by decide)
    simpa using this
  unfold C6x0.destroy C6x0.set_current_ref
  cases htype : h.type_ with
  | C610 =>
    have hc : clamp (.fin 0) (.fin (-10000)) (.fin 10000) = .fin 0 := by
      norm_num [clamp, F32.lt]
    simp only [hc, h0]
    rfl
  | C620 =>
    have hc : clamp (.fin 0) (.fin (-20000)) (.fin 20000) = .fin 0 := by
      norm_num [clamp, F32.lt]
    have hd : F32.div (.fin 0) (.fin 20000) = .fin 0 := by
      simp [F32.div, F32.round, F32.zero]
    have hm : F32.mul (.fin 0) (.fin 16384) = .fin 0 := by
      simp [F32.mul, F32.round, F32.zero]
    simp only [hc, hd, hm, h0]
    rfl

/-- C12 (fail-safe on scope end). For either device variant, every motor id and
every prior manager state, the destructor of a `C6x0` handle (`set_current_ref(0)`)
is defined and leaves that motor with `current_ref_raw_ = 0`. In the next
`transmit` the field of that motor is the byte pair `00 00`: for motors 0..3 in
frame A, the first frame offered, for motors 4..7 in frame B, the frame offered
after frame A was accepted. -/
theorem C12_fail_safe_on_scope_end (h : C6x0) (m : C6x0Manager) :
    ∃ m1, h.destroy m = some m1
      ∧ (m1.params_ h.id_.to_underlying).current_ref_raw_ = 0
      ∧ (∃ rest, m1.transmit.2.can_.offered = m1.can_.offered ++ frame_A_spec m1 :: rest)
      ∧ (m1.can_.accept m1.can_.offered.length (frame_A_spec m1) = true →
          m1.transmit.2.can_.offered = m1.can_.offered ++ [frame_A_spec m1, frame_B_spec m1])
      ∧ (h.id_.to_underlying.val < 4 →
          (frame_A_spec m1).byte (2 * h.id_.to_underlying.val) = 0
          ∧ (frame_A_spec m1).byte (2 * h.id_.to_underlying.val + 1) = 0)
      ∧ (4 ≤ h.id_.to_underlying.val →
          (frame_B_spec m1).byte (2 * (h.id_.to_underlying.val - 4)) = 0
          ∧ (frame_B_spec m1).byte (2 * (h.id_.to_underlying.val - 4) + 1) = 0) := by
  refine ⟨m.set_current_ref_raw h.id_ 0, destroy_eq h m, set_current_ref_raw_stored _ _ _,
    ?_, ?_, ?_, ?_⟩
  · rw [transmit_eq]
    by_cases hA : (m.set_current_ref_raw h.id_ 0).can_.accept
        (m.set_current_ref_raw h.id_ 0).can_.offered.length
        (frame_A_spec (m.set_current_ref_raw h.id_ 0)) = true
    · rw [if_pos hA]
      exact ⟨[frame_B_spec (m.set_current_ref_raw h.id_ 0)], rfl⟩
    · rw [if_neg hA]
      exact ⟨[], rfl⟩
  · intro hA
    rw [transmit_eq, if_pos hA]
  · intro hlt
    rcases h with ⟨ty, id⟩
    simp only [] at hlt ⊢
    cases id <;> first | exact absurd hlt (by decide) | exact ⟨rfl, rfl⟩
  · intro hge
    rcases h with ⟨ty, id⟩
    simp only [] at hge ⊢
    cases id <;> first | exact absurd hge (by decide) | exact ⟨rfl, rfl⟩

/-- Witness of C12: destroying a C620 handle on motor `ID_6`, which held the
command 1234, makes an accepting transport see `00 00` in bytes 2, 3 of the
frame `0x1FF`. -/
theorem C12_fail_safe_on_scope_end_witness :
    ∃ m1, (⟨C6x0Type.C620, C6x0Id.ID_6⟩ : C6x0).destroy
          { C6x0Manager.init CanBase.idle 0 with
              params_ := fun _ => { current_ref_raw_ := 1234 } } = some m1
      ∧ (m1.params_ 5).current_ref_raw_ = 0
      ∧ (frame_B_spec m1).byte 2 = 0 ∧ (frame_B_spec m1).byte 3 = 0 := by
  obtain ⟨m1, h1, h2, _, _, _, h6⟩ := C12_fail_safe_on_scope_end ⟨C6x0Type.C620, C6x0Id.ID_6⟩
    { C6x0Manager.init CanBase.idle 0 with params_ := fun _ => { current_ref_raw_ := 1234 } }
  exact ⟨m1, h1, h2, (h6 (by decide)).1, (h6 (by decide)).2⟩

/-! ## Ownership and presence of the motor fields -/

theorem update_motor_prev (motor : Params) (msg : CanMessage) :
    (update_motor motor msg).prev_position_ = some (read_int16 msg 0) := rfl

theorem update_motor_command (motor : Params) (msg : CanMessage) :
    (update_motor motor msg).current_ref_raw_ = motor.current_ref_raw_ := by
  unfold update_motor
  cases motor.prev_position_ <;> rfl

theorem foldl_update_motor_prev (fs : List CanMessage) (motor : Params) :
    ((fs.foldl update_motor motor).prev_position_.isSome = true)
      ↔ (motor.prev_position_.isSome = true ∨ fs ≠ []) := by
  induction fs generalizing motor with
  | nil => simp
  | cons f fs ih =>
    rw [List.foldl_cons, ih, update_motor_prev]
    simp

theorem foldl_update_motor_command (fs : List CanMessage) (motor : Params) :
    (fs.foldl update_motor motor).current_ref_raw_ = motor.current_ref_raw_ := by
  induction fs generalizing motor with
  | nil => rfl
  | cons f fs ih => rw [List.foldl_cons, ih, update_motor_command]

theorem transmit_params (m : C6x0Manager) : m.transmit.2.params_ = m.params_ := by
  rw [transmit_eq]
  split_ifs <;> rfl

theorem update_prev_present_iff (m : C6x0Manager) (k : Fin 8) :
    ((m.update.params_ k).prev_position_.isSome = true)
      ↔ ((m.params_ k).prev_position_.isSome = true
          ∨ ∃ msg ∈ m.rx_queue_, msg.id = 0x201 + k.val) := by
  show ((update_loop m.rx_queue_ m.params_).2 k).prev_position_.isSome = true ↔ _
  rw [update_loop_motor, foldl_update_motor_prev]
  have hne : (m.rx_queue_.filter (fun msg => decide (msg.id = 0x201 + k.val))) ≠ []
      ↔ ∃ msg ∈ m.rx_queue_, msg.id = 0x201 + k.val := by
    rw [Ne, List.filter_eq_nil_iff]
    simp
  rw [hne]

/-- C13 (presence of `prev_position_` is monotone). For every manager state,
queue content and motor `k`: `prev_position_` is present after `update` if and
only if it was present before or the queue held at least one frame with
identifier `0x201 + k`; in particular a present value stays present; and no
event (`update`, `transmit`, `set_current_ref`, arrival of a frame) turns a
present `prev_position_` into an absent one. -/
theorem C13_prev_position_presence_monotone (m : C6x0Manager) (k : Fin 8) :
    (((m.update.params_ k).prev_position_.isSome = true)
      ↔ ((m.params_ k).prev_position_.isSome = true
          ∨ ∃ msg ∈ m.rx_queue_, msg.id = 0x201 + k.val))
    ∧ ((m.params_ k).prev_position_.isSome = true →
        (m.update.params_ k).prev_position_.isSome = true)
    ∧ ((m.params_ k).prev_position_.isSome = true →
        (m.transmit.2.params_ k).prev_position_.isSome = true)
    ∧ (∀ (h : C6x0) (v : F32) (m1 : C6x0Manager), h.set_current_ref m v = some m1 →
        (m.params_ k).prev_position_.isSome = true →
        (m1.params_ k).prev_position_.isSome = true)
    ∧ (∀ (op : Op) (m1 : C6x0Manager), op.apply m = some m1 →
        (m.params_ k).prev_position_.isSome = true →
        (m1.params_ k).prev_position_.isSome = true) := by
  have hupd := update_prev_present_iff m k
  have hset : ∀ (h : C6x0) (v : F32) (m1 : C6x0Manager), h.set_current_ref m v = some m1 →
      (m.params_ k).prev_position_.isSome = true →
      (m1.params_ k).prev_position_.isSome = true := by
    intro h v m1 hs hp
    obtain ⟨raw, hraw⟩ := set_current_ref_some h m m1 v hs
    rw [hraw, (set_current_ref_raw_feedback m h.id_ raw k).2.1]
    exact hp
  refine ⟨hupd, fun hp => hupd.mpr (Or.inl hp), fun hp => by rw [transmit_params]; exact hp,
    hset, ?_⟩
  intro op m1 hop hp
  cases op with
  | receive msg =>
    simp only [Op.apply, Option.some.injEq] at hop
    rw [← hop]
    exact hp
  | update =>
    simp only [Op.apply, Option.some.injEq] at hop
    rw [← hop]
    exact hupd.mpr (Or.inl hp)
  | transmit =>
    simp only [Op.apply, Option.some.injEq] at hop
    rw [← hop, transmit_params]
    exact hp
  | set_current_ref handle current => exact hset handle current m1 hop hp

/-- Witness of C13: motor 1 has no sample; a queue with one frame `0x202` makes
it present, and a later `set_current_ref` on that motor keeps it present. -/
theorem C13_prev_position_presence_monotone_witness :
    ((({ C6x0Manager.init CanBase.idle 0 with
          rx_queue_ := [feedback_frame 0x202 0 1 0 0 0 0] } : C6x0Manager).update.params_
        1).prev_position_.isSome = true)
    ∧ (∀ m1, (⟨C6x0Type.C610, C6x0Id.ID_2⟩ : C6x0).set_current_ref
          ({ C6x0Manager.init CanBase.idle 0 with
              rx_queue_ := [feedback_frame 0x202 0 1 0 0 0 0] } : C6x0Manager).update
          (.fin 5) = some m1 →
        (m1.params_ 1).prev_position_.isSome = true) :=
  ⟨(C13_prev_position_presence_monotone
      { C6x0Manager.init CanBase.idle 0 with rx_queue_ := [feedback_frame 0x202 0 1 0 0 0 0] }
      1).1.mpr (Or.inr ⟨feedback_frame 0x202 0 1 0 0 0 0, by simp, by decide⟩),
   fun m1 hs => (C13_prev_position_presence_monotone
      ({ C6x0Manager.init CanBase.idle 0 with
          rx_queue_ := [feedback_frame 0x202 0 1 0 0 0 0] } : C6x0Manager).update
      1).2.2.2.1 ⟨C6x0Type.C610, C6x0Id.ID_2⟩ (.fin 5) m1 hs (by decide)⟩

/-- C14 (field ownership). For every state and queue content `update` leaves
`current_ref_raw_` of all eight motors unchanged. For every handle (either
variant) on motor `k` and every request value other than NaN `set_current_ref`
is defined, and whenever it is defined it changes nothing except
`current_ref_raw_` of motor `k`: `position_`, `prev_position_`, `rpm_` and
`current_raw_` of every motor, `current_ref_raw_` of every other motor, the
receive queue, the filter handle and the transport are unchanged. -/
theorem C14_field_ownership (m : C6x0Manager) :
    (∀ k : Fin 8, (m.update.params_ k).current_ref_raw_ = (m.params_ k).current_ref_raw_)
    ∧ (∀ (h : C6x0) (v : F32), v ≠ F32.nan → ∃ m1, h.set_current_ref m v = some m1)
    ∧ (∀ (h : C6x0) (v : F32) (m1 : C6x0Manager), h.set_current_ref m v = some m1 →
        (∀ j : Fin 8,
          (m1.params_ j).position_ = (m.params_ j).position_
          ∧ (m1.params_ j).prev_position_ = (m.params_ j).prev_position_
          ∧ (m1.params_ j).rpm_ = (m.params_ j).rpm_
          ∧ (m1.params_ j).current_raw_ = (m.params_ j).current_raw_)
        ∧ (∀ j : Fin 8, j ≠ h.id_.to_underlying →
          (m1.params_ j).current_ref_raw_ = (m.params_ j).current_ref_raw_)
        ∧ m1.rx_queue_ = m.rx_queue_
        ∧ m1.filter_index_ = m.filter_index_
        ∧ m1.can_ = m.can_) := by
  refine ⟨?_, ?_, ?_⟩
  · intro k
    show ((update_loop m.rx_queue_ m.params_).2 k).current_ref_raw_ = _
    rw [update_loop_motor, foldl_update_motor_command]
  · intro h v hv
    obtain ⟨raw, _, hraw⟩ := set_current_ref_defined h m v hv
    exact ⟨_, hraw⟩
  · intro h v m1 hs
    obtain ⟨raw, hraw⟩ := set_current_ref_some h m m1 v hs
    subst hraw
    refine ⟨fun j => set_current_ref_raw_feedback m h.id_ raw j, ?_, rfl, rfl, rfl⟩
    intro j hj
    rw [set_current_ref_raw_other m h.id_ raw j hj]

/-- Witness of C14: on a manager with non-trivial motor records, a C620 handle
on `ID_3` requesting 5000 changes only the command of motor 2. -/
theorem C14_field_ownership_witness :
    ∃ m1, (⟨C6x0Type.C620, C6x0Id.ID_3⟩ : C6x0).set_current_ref
        { C6x0Manager.init CanBase.idle 0 with
            params_ := fun _ => { position_ := 9, prev_position_ := some 9, rpm_ := 3,
                                  current_raw_ := 4, current_ref_raw_ := 77 } }
        (.fin 5000) = some m1
      ∧ (m1.params_ 2).position_ = 9 ∧ (m1.params_ 2).prev_position_ = some 9
      ∧ (m1.params_ 2).rpm_ = 3 ∧ (m1.params_ 2).current_raw_ = 4
      ∧ (m1.params_ 6).current_ref_raw_ = 77 := by
  have h := C14_field_ownership
    { C6x0Manager.init CanBase.idle 0 with
        params_ := fun _ => { position_ := 9, prev_position_ := some 9, rpm_ := 3,
                              current_raw_ := 4, current_ref_raw_ := 77 } }
  obtain ⟨m1, hm1⟩ := h.2.1 ⟨C6x0Type.C620, C6x0Id.ID_3⟩ (.fin 5000) (by simp)
  obtain ⟨hf, ho, _⟩ := h.2.2 ⟨C6x0Type.C620, C6x0Id.ID_3⟩ (.fin 5000) m1 hm1
  exact ⟨m1, hm1, (hf 2).1, (hf 2).2.1, (hf 2).2.2.1, (hf 2).2.2.2, ho 6 (by decide)⟩

/-! ## The 16-bit field codec -/

theorem decode_encode (v : Int) (hv : InInt16 v) :
    wrap16 (((toUInt8 (v >>> (8 : Nat)) <<< 8 ||| toUInt8 v : Nat) : Int)) = v := by
  have hlo : toUInt8 v < 256 := by unfold toUInt8; omega
  rw [shl8_or_eq _ _ hlo, toUInt8_shr8, toUInt8_low]
  unfold InInt16 at hv
  unfold wrap16 hi_byte_spec lo_byte_spec
  omega

theorem encode_decode (hi lo : Nat) (hhi : hi < 256) (hlo : lo < 256) :
    toUInt8 (wrap16 (((hi <<< 8 ||| lo : Nat) : Int)) >>> (8 : Nat)) = hi
    ∧ toUInt8 (wrap16 (((hi <<< 8 ||| lo : Nat) : Int))) = lo := by
  rw [shl8_or_eq _ _ hlo, toUInt8_shr8, toUInt8_low]
  unfold wrap16 hi_byte_spec lo_byte_spec
  omega

/-- C18 (big-endian `int16_t` codec round trip). For every 16-bit signed value
`v`, the two bytes `transmit` writes for a command field, `(v >> 8)` and `v`
truncated to `uint8_t`, decode under the field decoder of `update`,
`(int16_t)(hi << 8 | lo)`, back to `v`; conversely for every byte pair
`(hi, lo)` encoding the decoded value yields `(hi, lo)` again. In particular
each field of the payloads packed by `transmit` decodes to the command it was
packed from. -/
theorem C18_int16_codec_round_trip :
    (∀ (v : Int), InInt16 v → ∀ (id : Nat) (ide : Bool) (dlc : Nat) (rest : List Nat),
      read_int16 ⟨id, ide, dlc, toUInt8 (v >>> (8 : Nat)) :: toUInt8 v :: rest⟩ 0 = v)
    ∧ (∀ (hi lo : Nat), hi < 256 → lo < 256 →
        ∀ (id : Nat) (ide : Bool) (dlc : Nat) (rest : List Nat),
          toUInt8 (read_int16 ⟨id, ide, dlc, hi :: lo :: rest⟩ 0 >>> (8 : Nat)) = hi
          ∧ toUInt8 (read_int16 ⟨id, ide, dlc, hi :: lo :: rest⟩ 0) = lo)
    ∧ (∀ (params : Fin 8 → Params) (i : Fin 4),
        InInt16 (params ⟨i.val, by omega⟩).current_ref_raw_ →
        read_int16 ⟨0x200, false, 8, pack_low params (List.replicate 8 0)⟩ (2 * i.val)
          = (params ⟨i.val, by omega⟩).current_ref_raw_)
    ∧ (∀ (params : Fin 8 → Params) (i : Fin 4),
        InInt16 (params ⟨i.val + 4, by omega⟩).current_ref_raw_ →
        read_int16 ⟨0x1FF, false, 8, pack_high params (List.replicate 8 0)⟩ (2 * i.val)
          = (params ⟨i.val + 4, by omega⟩).current_ref_raw_) := by
  refine ⟨?_, ?_, ?_, ?_⟩
  · intro v hv id ide dlc rest
    exact decode_encode v hv
  · intro hi lo hhi hlo id ide dlc rest
    exact encode_decode hi lo hhi hlo
  · intro params i hv
    have h := decode_encode _ hv
    fin_cases i <;> exact h
  · intro params i hv
    have h := decode_encode _ hv
    fin_cases i <;> exact h

/-- Witness of C18: `v = -2` is written as `FF FE` and read back as `-2`;
the byte pair `80 01` is read as `-32767` and written back as `80 01`. -/
theorem C18_int16_codec_round_trip_witness :
    read_int16 ⟨0x201, false, 8, [toUInt8 ((-2 : Int) >>> (8 : Nat)), toUInt8 (-2)]⟩ 0 = -2
    ∧ toUInt8 (read_int16 ⟨0x201, false, 8, [0x80, 0x01]⟩ 0 >>> (8 : Nat)) = 0x80
    ∧ toUInt8 (read_int16 ⟨0x201, false, 8, [0x80, 0x01]⟩ 0) = 0x01 :=
  ⟨C18_int16_codec_round_trip.1 (-2) (by decide) 0x201 false 8 [],
   (C18_int16_codec_round_trip.2.1 0x80 0x01 (by decide) (by decide) 0x201 false 8 []).1,
   (C18_int16_codec_round_trip.2.1 0x80 0x01 (by decide) (by decide) 0x201 false 8 []).2⟩

/-! ## The receive filter -/

set_option maxRecDepth 20000 in
theorem mask_rule_grid : ∀ a : Nat, a < 128 → ∀ b : Nat, b < 16 →
    (((16 * a + b) &&& 0x7F0 = 0x200 &&& 0x7F0) ↔ (0x200 ≤ 16 * a + b ∧ 16 * a + b ≤ 0x20F)) := by
  decide

theorem mask_rule_range (x : Nat) (hx : x < 0x800) :
    ((x &&& 0x7F0 = 0x200 &&& 0x7F0) ↔ (0x200 ≤ x ∧ x ≤ 0x20F)) := by
  have h := mask_rule_grid (x / 16) (by omega) (x % 16) (by omega)
  have hx2 : 16 * (x / 16) + x % 16 = x := by omega
  rw [hx2] at h
  exact h

/-- C16, claim as stated, refuted. The constructor registers the filter
`{0x200, 0x7F0, false}`; under the mask rule the standard identifier `0x200`
(the base itself) matches it, although it is not among `0x201..0x20F`. -/
theorem C16_base_identifier_counterexample :
    (C6x0Manager.new CanBase.idle).map (fun m => m.can_.filters)
        = some [⟨0x200, 0x7F0, false⟩]
    ∧ CanFilter.matches ⟨0x200, 0x7F0, false⟩ 0x200 false = true
    ∧ 0x200 < 0x800
    ∧ ¬ (0x201 ≤ 0x200 ∧ 0x200 ≤ 0x20F) := by
  decide

/-- C16 (receive filter range, amended). The filter the constructor registers
is `{0x200, 0x7F0, false}`. Under the mask rule an 11-bit standard identifier
`x` matches it exactly when `0x200 <= x <= 0x20F` (base ... base+15); extended
frames never match. It therefore admits every feedback identifier
`0x201..0x208` that `update` decodes. -/
theorem C16_receive_filter_range (can : CanBase) (m : C6x0Manager)
    (hnew : C6x0Manager.new can = some m) :
    m.can_.filters = can.filters ++ [⟨0x200, 0x7F0, false⟩]
    ∧ (∀ x : Nat, x < 0x800 →
        (CanFilter.matches ⟨0x200, 0x7F0, false⟩ x false = true ↔ (0x200 ≤ x ∧ x ≤ 0x20F)))
    ∧ (∀ x : Nat, CanFilter.matches ⟨0x200, 0x7F0, false⟩ x true = false)
    ∧ (∀ x : Nat, 0x201 ≤ x → x < 0x201 + 8 →
        CanFilter.matches ⟨0x200, 0x7F0, false⟩ x false = true) := by
  have hrange : ∀ x : Nat, x < 0x800 →
      (CanFilter.matches ⟨0x200, 0x7F0, false⟩ x false = true ↔ (0x200 ≤ x ∧ x ≤ 0x20F)) := by
    intro x hx
    rw [← mask_rule_range x hx]
    simp [CanFilter.matches]
  refine ⟨?_, hrange, ?_, ?_⟩
  · unfold C6x0Manager.new CanBase.attach_rx_queue at hnew
    cases hatt : can.attach { id := 0x200, mask := 0x7F0, ide := false } with
    | none => rw [hatt] at hnew; exact absurd hnew (by simp)
    | some index =>
      rw [hatt] at hnew
      simp only [Option.some.injEq] at hnew
      rw [← hnew]
  · intro x
    simp [CanFilter.matches]
  · intro x h1 h2
    exact (hrange x (by omega)).mpr ⟨by omega, by omega⟩

/-- Witness of C16: construction on an idle transport registers the filter. -/
theorem C16_receive_filter_range_witness :
    (C6x0Manager.init
        { accept := fun _ _ => true, offered := [], sent := [],
          filters := [⟨0x200, 0x7F0, false⟩] } 0).can_.filters
      = ([] : List CanFilter) ++ [⟨0x200, 0x7F0, false⟩] :=
  (C16_receive_filter_range CanBase.idle
    (C6x0Manager.init
        { accept := fun _ _ => true, offered := [], sent := [],
          filters := [⟨0x200, 0x7F0, false⟩] } 0) rfl).1

/-! ## The position/sample congruence invariant -/

theorem update_motor_congruent (motor : Params) (msg : CanMessage)
    (h : position_sample_congruent motor) :
    position_sample_congruent (update_motor motor msg) := by
  unfold position_sample_congruent at h ⊢
  unfold update_motor
  cases hp : motor.prev_position_ with
  | none =>
    simp only []
    omega
  | some prev =>
    rw [hp] at h
    simp only [] at h ⊢
    rw [unwrap_delta_eq]
    unfold wrap64 wrap_correction_spec wrap16
    split_ifs <;> omega

theorem foldl_update_motor_congruent (fs : List CanMessage) (motor : Params)
    (h : position_sample_congruent motor) :
    position_sample_congruent (fs.foldl update_motor motor) := by
  induction fs generalizing motor with
  | nil => exact h
  | cons f fs ih => exact ih _ (update_motor_congruent motor f h)

theorem apply_congruent (op : Op) (m m1 : C6x0Manager) (hop : op.apply m = some m1)
    (h : ∀ k, position_sample_congruent (m.params_ k)) :
    ∀ k, position_sample_congruent (m1.params_ k) := by
  intro k
  cases op with
  | receive msg =>
    simp only [Op.apply, Option.some.injEq] at hop
    rw [← hop]
    exact h k
  | update =>
    simp only [Op.apply, Option.some.injEq] at hop
    rw [← hop]
    show position_sample_congruent ((update_loop m.rx_queue_ m.params_).2 k)
    rw [update_loop_motor]
    exact foldl_update_motor_congruent _ _ (h k)
  | transmit =>
    simp only [Op.apply, Option.some.injEq] at hop
    rw [← hop, transmit_params]
    exact h k
  | set_current_ref handle current =>
    obtain ⟨raw, hraw⟩ := set_current_ref_some handle m m1 current hop
    have hf := set_current_ref_raw_feedback m handle.id_ raw k
    have hk := h k
    unfold position_sample_congruent at hk ⊢
    rw [hraw, hf.1, hf.2.1]
    exact hk

theorem run_congruent (ops : List Op) (m m1 : C6x0Manager) (hrun : run ops m = some m1)
    (h : ∀ k, position_sample_congruent (m.params_ k)) :
    ∀ k, position_sample_congruent (m1.params_ k) := by
  induction ops generalizing m with
  | nil =>
    simp only [run, Option.some.injEq] at hrun
    rw [← hrun]
    exact h
  | cons op ops ih =>
    simp only [run, Option.bind_eq_some] at hrun
    obtain ⟨m2, hop, hrest⟩ := hrun
    exact ih m2 hrest (apply_congruent op m m2 hop h)

theorem run_defined (ops : List Op) (m : C6x0Manager)
    (hnan : ∀ handle, Op.set_current_ref handle F32.nan ∉ ops) :
    ∃ m1, run ops m = some m1 := by
  induction ops generalizing m with
  | nil => exact ⟨m, rfl⟩
  | cons op ops ih =>
    have hrest : ∀ handle, Op.set_current_ref handle F32.nan ∉ ops :=
      fun handle hmem => hnan handle (List.mem_cons_of_mem _ hmem)
    have hop : ∃ m2, op.apply m = some m2 := by
      cases op with
      | receive msg => exact ⟨_, rfl⟩
      | update => exact ⟨_, rfl⟩
      | transmit => exact ⟨_, rfl⟩
      | set_current_ref handle current =>
        have hv : current ≠ F32.nan := by
          intro hc
          apply hnan handle
          rw [hc]
          exact List.mem_cons_self _ _
        obtain ⟨raw, _, hraw⟩ := set_current_ref_defined handle m current hv
        exact ⟨_, hraw⟩
    obtain ⟨m2, hm2⟩ := hop
    obtain ⟨m3, hm3⟩ := ih m2 hrest
    exact ⟨m3, by simp only [run, hm2, Option.some_bind, hm3]⟩

/-- C17 (position/sample congruence invariant). In every state reached from a
freshly constructed manager by any sequence of frame arrivals (with arbitrary
payload bytes, hence arbitrary 16-bit samples) and calls of `update`,
`transmit` and `set_current_ref`, each motor whose `prev_position_` is present
has `position_` congruent to it modulo 8192, and each motor whose
`prev_position_` is absent has `position_ = 0`. Every such sequence without a
NaN request does reach a state. The 64-bit accumulator is taken modulo `2^64`,
which preserves the congruence. -/
theorem C17_position_sample_congruence (can : CanBase) (m0 : C6x0Manager)
    (hnew : C6x0Manager.new can = some m0) (ops : List Op) :
    (∀ m : C6x0Manager, run ops m0 = some m → ∀ k : Fin 8,
      (∀ raw, (m.params_ k).prev_position_ = some raw →
        ((m.params_ k).position_ - raw) % 8192 = 0)
      ∧ ((m.params_ k).prev_position_ = none → (m.params_ k).position_ = 0))
    ∧ ((∀ handle, Op.set_current_ref handle F32.nan ∉ ops) → ∃ m, run ops m0 = some m) := by
  have hinit : ∀ k, position_sample_congruent (m0.params_ k) := by
    intro k
    unfold C6x0Manager.new at hnew
    cases hatt : can.attach_rx_queue { id := 0x200, mask := 0x7F0, ide := false } with
    | none => rw [hatt] at hnew; exact absurd hnew (by simp)
    | some r =>
      rw [hatt] at hnew
      simp only [Option.some.injEq] at hnew
      rw [← hnew]
      rfl
  refine ⟨?_, run_defined ops m0⟩
  intro m hrun k
  have hk := run_congruent ops m0 m hrun hinit k
  unfold position_sample_congruent at hk
  constructor
  · intro raw hraw
    rw [hraw] at hk
    exact hk
  · intro hnone
    rw [hnone] at hk
    exact hk

/-- Witness of C17: construction, two out-of-window frames for motor 0 (samples
-20000 and 20000), `update`, `transmit`: motor 0 ends with sample 20000 and a
position congruent to it modulo 8192, motor 1 still has position 0. -/
theorem C17_position_sample_congruence_witness :
    ∃ m, run [Op.receive (feedback_frame 0x201 0xB1 0xE0 0 0 0 0),
              Op.receive (feedback_frame 0x201 0x4E 0x20 0 0 0 0), Op.update, Op.transmit]
            (C6x0Manager.init
              { accept := fun _ _ => true, offered := [], sent := [],
                filters := [⟨0x200, 0x7F0, false⟩] } 0) = some m
      ∧ (m.params_ 0).prev_position_ = some 20000
      ∧ (m.params_ 0).position_ = -37344
      ∧ ((m.params_ 0).position_ - 20000) % 8192 = 0
      ∧ (m.params_ 1).position_ = 0 :=
  ⟨_, rfl, rfl, rfl,
    ((C17_position_sample_congruence CanBase.idle _ rfl
      [Op.receive (feedback_frame 0x201 0xB1 0xE0 0 0 0 0),
       Op.receive (feedback_frame 0x201 0x4E 0x20 0 0 0 0), Op.update, Op.transmit]).1
      _ rfl 0).1 20000 rfl,
    ((C17_position_sample_congruence CanBase.idle _ rfl
      [Op.receive (feedback_frame 0x201 0xB1 0xE0 0 0 0 0),
       Op.receive (feedback_frame 0x201 0x4E 0x20 0 0 0 0), Op.update, Op.transmit]).1
      _ rfl 1).2 rfl⟩

end halx.driver
